import Mathlib

/-!
Verification of the guest-memory plane of a microVM monitor.

This file gives a shallow embedding, in Lean, of the memory subsystem of the
repository (region registration, dirty-page tracking and snapshotting,
bounce-buffered I/O, and the userspace page-fault handler), together with
theorems settling the specification claims about it.

Conventions of the embedding:
* machine integers (u64, usize, u32) are modelled as Nat; wherever a wrapping
  or masking operation matters in the source, the reduction modulo 2^64 (or
  the bitmask) is written out explicitly;
* fallible operations return Except or Option; a Rust panic (unwrap/expect on
  a missing value, explicit panic) is modelled as the Option value none or as
  a dedicated outcome constructor;
* external side effects (uffd ioctls, KVM ioctls, writer seeks/writes,
  thread sleeps) are modelled as logs of the operations issued, so theorems
  can speak about exactly which host calls a function performs.
-/

namespace FcMem

/-! ## Userspace page-fault handler (uffd_utils.rs) -/

/-- Per-page lifecycle state tracked by the fault handler
(uffd_utils.rs, MemPageState). -/
inductive MemPageState where
  | Uninitialized
  | FromFile
  | Removed
  | Anonymous
deriving DecidableEq

/-- Mapping of one guest memory region as received in the handshake
(uffd_utils.rs, GuestRegionUffdMapping). -/
structure GuestRegionUffdMapping where
  base_host_virt_addr : Nat
  size : Nat
  offset : Nat
deriving DecidableEq

/-- A region with its per-page state table (uffd_utils.rs, MemRegion).
The HashMap from page base address to state is modelled as an association
list; lookup order inside one region is irrelevant because keys are unique. -/
structure MemRegion where
  mapping : GuestRegionUffdMapping
  page_states : List (Nat × MemPageState)
deriving DecidableEq

/-- The fault handler's state (uffd_utils.rs, UffdPfHandler). The raw pointer
to the mmap'd backing file is modelled as a base address in Nat. -/
structure UffdPfHandler where
  mem_regions : List MemRegion
  page_size : Nat
  backing_buffer : Nat
deriving DecidableEq

/-- An operation issued on the userfaultfd fault channel: either a copy of
len bytes from source address src (inside the mmap'd backing file) to guest
address dst, or a zero-fill of len bytes at addr. -/
inductive UffdOp where
  | copy (src dst len : Nat)
  | zero (addr len : Nat)
deriving DecidableEq

/-- Page-state keys created for one region: base, base+ps, ... while the
address is below base+size (uffd_utils.rs, create_mem_regions). ps = 0 is
impossible in the source (page_size is asserted to be a power of two). -/
def pageKeysFrom (ps : Nat) : Nat → Nat → List Nat
  | _, 0 => []
  | addr, fuel + 1 => addr :: pageKeysFrom ps (addr + ps) fuel

/-- Number of loop iterations of the page-state creation loop. -/
def pageKeyCount (size ps : Nat) : Nat := (size + ps - 1) / ps

/-- Builds the per-region page-state tables, every page starting out
Uninitialized (uffd_utils.rs, create_mem_regions). -/
def create_mem_regions (mappings : List GuestRegionUffdMapping) (ps : Nat) :
    List MemRegion :=
  mappings.map (fun r =>
    { mapping := r,
      page_states :=
        (pageKeysFrom ps r.base_host_virt_addr (pageKeyCount r.size ps)).map
          (fun k => (k, MemPageState.Uninitialized)) })

/-- Bitwise complement in u64: !x as the source computes it on usize. -/
def notU64 (x : Nat) : Nat := 2 ^ 64 - 1 - x

/-- The page base computed by serve_pf: addr & !(len - 1) on usize values
(uffd_utils.rs, serve_pf). -/
def pageBaseMask (addr len : Nat) : Nat := addr &&& notU64 (len - 1)

/-- Sets the state of every tracked page with start <= key < stop, in every
region, to the given state (uffd_utils.rs, update_mem_state_mappings). -/
def update_mem_state_mappings (h : UffdPfHandler) (start stop : Nat)
    (s : MemPageState) : UffdPfHandler :=
  { h with
    mem_regions := h.mem_regions.map (fun r =>
      { r with
        page_states := r.page_states.map (fun kv =>
          if start ≤ kv.1 ∧ kv.1 < stop then (kv.1, s) else kv) }) }

/-- The copy issued by populate_from_file (uffd_utils.rs). The source
computes offset = dst - region.base and src = backing_buffer + region.offset
+ offset, but the actual uffd.copy call passes the backing buffer base as
source, the region base as destination and the full region size as length;
the computed src is never used. The returned pair is the range the caller
transitions, which does use dst and len. -/
def populate_from_file (h : UffdPfHandler) (region : MemRegion)
    (dst len : Nat) : (Nat × Nat) × UffdOp :=
  ((dst, dst + len),
   UffdOp.copy h.backing_buffer region.mapping.base_host_virt_addr
     region.mapping.size)

/-- The zeropage issued by zero_out (uffd_utils.rs). -/
def zero_out (addr len : Nat) : (Nat × Nat) × UffdOp :=
  ((addr, addr + len), UffdOp.zero addr len)

/-- Finds the first region whose page-state table contains the key, together
with the recorded state (the region loop of serve_pf). -/
def lookupRegionState : List MemRegion → Nat → Option (MemRegion × MemPageState)
  | [], _ => none
  | r :: rest, k =>
    match r.page_states.lookup k with
    | some s => some (r, s)
    | none => lookupRegionState rest k

/-- Serves one page fault (uffd_utils.rs, serve_pf). Returns none when the
faulting page belongs to no region (the source panics there); otherwise the
updated handler and the fault-channel operations issued. -/
def serve_pf (h : UffdPfHandler) (addr len : Nat) :
    Option (UffdPfHandler × List UffdOp) :=
  let dst := pageBaseMask addr len
  match lookupRegionState h.mem_regions dst with
  | some (region, s) =>
    match s with
    | MemPageState.Uninitialized | MemPageState.FromFile =>
      let res := populate_from_file h region dst len
      some (update_mem_state_mappings h res.1.1 res.1.2 MemPageState.FromFile,
            [res.2])
    | MemPageState.Removed | MemPageState.Anonymous =>
      let res := zero_out dst len
      some (update_mem_state_mappings h res.1.1 res.1.2 MemPageState.Anonymous,
            [res.2])
  | none => none

/-- One event read from the fault channel (uffd_utils.rs, handle_faults). -/
inductive UffdEvent where
  | Pagefault (addr : Nat)
  | Remove (start stop : Nat)
  | Other
deriving DecidableEq

/-- One iteration of the fault handler's event loop (uffd_utils.rs,
handle_faults): a Pagefault is served at fault_size granularity, a Remove
transitions the range to Removed issuing no fault-channel operation, any
other event is fatal (none). -/
def handle_event (h : UffdPfHandler) (fault_size : Nat) :
    UffdEvent → Option (UffdPfHandler × List UffdOp)
  | UffdEvent.Pagefault addr => serve_pf h addr fault_size
  | UffdEvent.Remove start stop =>
    some (update_mem_state_mappings h start stop MemPageState.Removed, [])
  | UffdEvent.Other => none

/-- The copy operation the specification mandates for a fault at page_base
(spec section 4.F): fault_size bytes taken from the backing file at
region.offset + (page_base - region.base), placed at page_base. This
definition follows the specification's words; it exists to be compared
against the operation the source actually issues. -/
def specCopyOp (h : UffdPfHandler) (region : MemRegion)
    (page_base fault_size : Nat) : UffdOp :=
  UffdOp.copy
    (h.backing_buffer + region.mapping.offset +
      (page_base - region.mapping.base_host_virt_addr))
    page_base fault_size

/-- State recorded for a tracked page, searching the regions in the order
serve_pf does. -/
def handlerStateAt (h : UffdPfHandler) (k : Nat) : Option MemPageState :=
  (lookupRegionState h.mem_regions k).map Prod.snd

/-- Asserts that handler h' is h with exactly the tracked pages whose key
lies in [lo, hi) moved to state tgt, every other page state, every region
mapping and the handler's other fields unchanged. -/
def pageMapSpec (h h' : UffdPfHandler) (lo hi : Nat) (tgt : MemPageState) : Prop :=
  h'.page_size = h.page_size ∧
  h'.backing_buffer = h.backing_buffer ∧
  h'.mem_regions.length = h.mem_regions.length ∧
  ∀ i (hi1 : i < h.mem_regions.length) (hi2 : i < h'.mem_regions.length),
    (h'.mem_regions.get ⟨i, hi2⟩).mapping = (h.mem_regions.get ⟨i, hi1⟩).mapping ∧
    (h'.mem_regions.get ⟨i, hi2⟩).page_states.length =
      (h.mem_regions.get ⟨i, hi1⟩).page_states.length ∧
    ∀ j (hj1 : j < (h.mem_regions.get ⟨i, hi1⟩).page_states.length)
        (hj2 : j < (h'.mem_regions.get ⟨i, hi2⟩).page_states.length),
      (h'.mem_regions.get ⟨i, hi2⟩).page_states.get ⟨j, hj2⟩ =
        (fun kv => if lo ≤ kv.1 ∧ kv.1 < hi then (kv.1, tgt) else kv)
          ((h.mem_regions.get ⟨i, hi1⟩).page_states.get ⟨j, hj1⟩)

/-! ## VM creation and slot registration (vstate/vm.rs and vstate/vm/mod.rs) -/

/-- Outcome of one KVM_CREATE_VM host call: success, failure with errno
EINTR, or failure with any other errno. -/
inductive CreateAttempt where
  | ok
  | eintr
  | fatal
deriving DecidableEq

/-- Observable result of Vm::create_common: the VM was created on the given
1-based attempt, or the loop returned CreateVm carrying an interrupted or a
non-interrupted error. -/
inductive CreateOutcome where
  | created (attempt : Nat)
  | createVm (interrupted : Bool)
deriving DecidableEq

/-- Upper bound on KVM_CREATE_VM attempts (vstate/vm.rs, MAX_ATTEMPTS). -/
def MAX_ATTEMPTS : Nat := 5

/-- The retry loop of Vm::create_common (vstate/vm.rs): f gives the outcome
of the n-th create call; the returned list collects the microsecond sleep
durations performed between successive attempts. -/
def create_vm_loop (f : Nat → CreateAttempt) (attempt : Nat)
    (sleeps : List Nat) : CreateOutcome × List Nat :=
  match f attempt with
  | CreateAttempt.ok => (CreateOutcome.created attempt, sleeps)
  | CreateAttempt.eintr =>
    if h : attempt < MAX_ATTEMPTS then
      create_vm_loop f (attempt + 1) (sleeps ++ [2 ^ (attempt - 1)])
    else
      (CreateOutcome.createVm true, sleeps)
  | CreateAttempt.fatal => (CreateOutcome.createVm false, sleeps)
termination_by MAX_ATTEMPTS - attempt
decreasing_by simp_wf; omega

/-- Vm::create_common (vstate/vm.rs): run the retry loop starting at
attempt 1 with no sleeps performed yet. -/
def create_common (f : Nat → CreateAttempt) : CreateOutcome × List Nat :=
  create_vm_loop f 1 []

/-- A guest memory region as the slot registrar sees it (vstate/vm.rs):
guest-physical base, byte length and whether a dirty bitmap is attached. -/
structure VmRegion where
  guest_phys_addr : Nat
  memory_size : Nat
  has_bitmap : Bool
deriving DecidableEq

/-- The KVM_MEM_LOG_DIRTY_PAGES flag bit (kvm_bindings). -/
def KVM_MEM_LOG_DIRTY_PAGES : Nat := 1

/-- The KVM_MEM_GUEST_MEMFD flag bit (kvm_bindings). -/
def KVM_MEM_GUEST_MEMFD : Nat := 4

/-- The kvm_userspace_memory_region descriptor handed to
KVM_SET_USER_MEMORY_REGION (the fields the source fills; the host virtual
address is omitted from the model as it is opaque to the claims). -/
structure KvmUserspaceMemoryRegion where
  slot : Nat
  flags : Nat
  guest_phys_addr : Nat
  memory_size : Nat
deriving DecidableEq

/-- Errors of the slot registrar (vstate/vm.rs, VmError; only the variants
the modelled paths produce). -/
inductive VmError where
  | SetUserMemoryRegion
  | NotEnoughMemorySlots
deriving DecidableEq

/-- The try_for_each loop of Vm::set_kvm_memory_regions (vstate/vm.rs):
builds one descriptor per region with slots assigned by the zip with 0..,
issues them in order, and stops at the first host rejection (hostOk tells
whether the host accepts the call for a given slot). Returns the Result
together with the host calls issued, the rejected call included. -/
def setRegionsGo (hostOk : Nat → Bool) :
    List VmRegion → Nat → List KvmUserspaceMemoryRegion →
    Except VmError Unit × List KvmUserspaceMemoryRegion
  | [], _, calls => (Except.ok (), calls)
  | r :: rest, slot, calls =>
    let call : KvmUserspaceMemoryRegion :=
      { slot := slot,
        flags := if r.has_bitmap then KVM_MEM_LOG_DIRTY_PAGES else 0,
        guest_phys_addr := r.guest_phys_addr,
        memory_size := r.memory_size }
    if hostOk slot then setRegionsGo hostOk rest (slot + 1) (calls ++ [call])
    else (Except.error VmError.SetUserMemoryRegion, calls ++ [call])

/-- Vm::set_kvm_memory_regions (vstate/vm.rs). -/
def set_kvm_memory_regions (hostOk : Nat → Bool) (regions : List VmRegion) :
    Except VmError Unit × List KvmUserspaceMemoryRegion :=
  setRegionsGo hostOk regions 0 []

/-- Vm::memory_init (vstate/vm.rs): fails with NotEnoughMemorySlots before
any host call when the region count exceeds the host-reported slot capacity,
and otherwise registers all regions. -/
def memory_init (max_memslots : Nat) (regions : List VmRegion)
    (hostOk : Nat → Bool) :
    Except VmError Unit × List KvmUserspaceMemoryRegion :=
  if regions.length > max_memslots then
    (Except.error VmError.NotEnoughMemorySlots, [])
  else set_kvm_memory_regions hostOk regions

/-- A region as the guest_memfd-variant registrar sees it (vstate/vm/mod.rs):
additionally carries the file offset used for the guest_memfd binding of
private regions (none when the region is not file-backed). -/
structure VmRegion2 where
  guest_phys_addr : Nat
  memory_size : Nat
  has_bitmap : Bool
  file_offset : Option Nat
deriving DecidableEq

/-- The kvm_userspace_memory_region2 descriptor handed to
KVM_SET_USER_MEMORY_REGION2 (vstate/vm/mod.rs). -/
structure KvmUserspaceMemoryRegion2 where
  slot : Nat
  flags : Nat
  guest_phys_addr : Nat
  memory_size : Nat
  guest_memfd_offset : Nat
deriving DecidableEq

/-- Errors of the guest_memfd-variant registrar (vstate/vm/mod.rs, VmError;
note its error type has no NotEnoughMemorySlots variant at all). -/
inductive VmError2 where
  | SetUserMemoryRegion
  | SetMemoryAttributes
deriving DecidableEq

/-- kvmify (vstate/vm/mod.rs): descriptor for a shared region; slot is
filled later by the zip with 0.. . -/
def kvmify (r : VmRegion2) : KvmUserspaceMemoryRegion2 :=
  { slot := 0,
    flags := if r.has_bitmap then KVM_MEM_LOG_DIRTY_PAGES else 0,
    guest_phys_addr := r.guest_phys_addr,
    memory_size := r.memory_size,
    guest_memfd_offset := 0 }

/-- Descriptor for a private region (vstate/vm/mod.rs, the private_mem arm
of memory_init): kvmify plus KVM_MEM_GUEST_MEMFD and the file offset from
region.file_offset().unwrap(); none means the unwrap panics. -/
def kvmifyPrivate (r : VmRegion2) : Option KvmUserspaceMemoryRegion2 :=
  (r.file_offset).map (fun off =>
    { kvmify r with
      flags := (kvmify r).flags ||| KVM_MEM_GUEST_MEMFD,
      guest_memfd_offset := off })

/-- Issues the region2 descriptors in order until the host rejects one
(hostOk by slot); returns the Result and the calls issued. -/
def issueRegions2 (hostOk : Nat → Bool) :
    List KvmUserspaceMemoryRegion2 →
    Except VmError2 Unit × List KvmUserspaceMemoryRegion2
  | [] => (Except.ok (), [])
  | c :: rest =>
    if hostOk c.slot then
      let r := issueRegions2 hostOk rest
      (r.1, c :: r.2)
    else (Except.error VmError2.SetUserMemoryRegion, [c])

/-- Issues the KVM_MEMORY_ATTRIBUTE_PRIVATE calls (address, size) for the
private regions in order, stopping at the first host rejection (attrOk by
position in the private list). -/
def issueAttrs (attrOk : Nat → Bool) :
    List VmRegion2 → Nat → Except VmError2 Unit × List (Nat × Nat)
  | [], _ => (Except.ok (), [])
  | r :: rest, i =>
    if attrOk i then
      let res := issueAttrs attrOk rest (i + 1)
      (res.1, (r.guest_phys_addr, r.memory_size) :: res.2)
    else (Except.error VmError2.SetMemoryAttributes,
          [(r.guest_phys_addr, r.memory_size)])

/-- Vm::memory_init of the guest_memfd variant (vstate/vm/mod.rs): chains
shared then private regions, assigns slots densely from 0 by the zip with
0.., issues every KVM_SET_USER_MEMORY_REGION2 call, then marks every
private region's range with KVM_MEMORY_ATTRIBUTE_PRIVATE. No slot-capacity
check is performed. Returns none when a private region lacks a file offset
(the source unwraps there); otherwise the Result, the region calls issued
and the (address, size) attribute calls issued. The x86-only TSS setup that
follows in the source is outside the model. -/
def memory_init_memfd (shared : List VmRegion2)
    (private_mem : Option (List VmRegion2)) (hostOk : Nat → Bool)
    (attrOk : Nat → Bool) :
    Option (Except VmError2 Unit × List KvmUserspaceMemoryRegion2 ×
            List (Nat × Nat)) :=
  let privList := match private_mem with
    | some l => l
    | none => []
  (privList.mapM kvmifyPrivate).map (fun privCalls =>
    let chained := shared.map kvmify ++ privCalls
    let slotted := (chained.zip (List.range chained.length)).map
      (fun p => { p.1 with slot := p.2 })
    let reg := issueRegions2 hostOk slotted
    match reg.1 with
    | Except.error e => (Except.error e, reg.2, [])
    | Except.ok () =>
      let att := issueAttrs attrOk privList 0
      (att.1, reg.2, att.2))

/-- Host-call list produced by registering the given regions starting at
the given slot: one descriptor per region, slots ascending. This is the
specification-shaped description of set_kvm_memory_regions' output, proved
equal to it below. -/
def buildCalls : List VmRegion → Nat → List KvmUserspaceMemoryRegion
  | [], _ => []
  | r :: rest, slot =>
    { slot := slot,
      flags := if r.has_bitmap then KVM_MEM_LOG_DIRTY_PAGES else 0,
      guest_phys_addr := r.guest_phys_addr,
      memory_size := r.memory_size } :: buildCalls rest (slot + 1)

/-- The slotted descriptor list the guest_memfd-variant memory_init builds
for shared-only memory. -/
def memfdSlotted (shared : List VmRegion2) : List KvmUserspaceMemoryRegion2 :=
  ((shared.map kvmify).zip (List.range (shared.map kvmify).length)).map
    (fun p => { p.1 with slot := p.2 })

/-- Concrete outcome sequence for exercising the create-VM retry loop: the
first two attempts are interrupted, the third succeeds. -/
def retryF : Nat → CreateAttempt :=
  fun i => if i ≤ 2 then CreateAttempt.eintr else CreateAttempt.ok

/-! ## Dirty tracking and snapshotting (vstate/memory.rs) -/

/-- A region of the KVM-backed guest memory collection as the dirty-dump
and bitmap-store paths see it (vstate/memory.rs, KvmRegion): the KVM slot,
the byte length, and the optional monitor-owned dirty bitmap, one bit per
host page. -/
structure DRegion where
  slot : Nat
  len : Nat
  bitmap : Option (List Bool)
deriving DecidableEq

/-- Number of bits of an optional bitmap. -/
def bitmapNumBits : Option (List Bool) → Nat
  | none => 0
  | some l => l.length

/-- Bit of an optional bitmap at a page index (false out of range or when
no bitmap is attached). -/
def bitGet (bm : Option (List Bool)) (j : Nat) : Bool :=
  match bm with
  | none => false
  | some l => l.getD j false

/-- dirty_at of the optional AtomicBitmap at a byte offset (vm-memory):
bit offset / page_size; none has no dirty bits. Offsets past the bitmap
read as clean, which agrees with the source wherever the source is defined
(the allocated words cover every offset the dump loop probes, and bits past
the region are never set). -/
def dirtyAt (bm : Option (List Bool)) (offset ps : Nat) : Bool :=
  bitGet bm (offset / ps)

/-- Whether the hypervisor bitmap marks page p dirty: word p / 64, bit
p % 64 — the (v >> j) & 1 != 0 test of the source, with a missing word
reading as zero. -/
def kvmPageDirty (words : List Nat) (p : Nat) : Bool :=
  (words.getD (p / 64) 0 >>> (p % 64)) &&& 1 != 0

/-- A page is dirty for the dump iff either the hypervisor bitmap or the
monitor-owned bitmap reports it dirty (the is_kvm_page_dirty ||
is_firecracker_page_dirty test of the source). -/
def jointDirty (words : List Nat) (bm : Option (List Bool)) (ps p : Nat) :
    Bool :=
  kvmPageDirty words p || dirtyAt bm (p * ps) ps

/-- Inner error of the dump loop (a GuestMemoryError in the source): either
the writer failed, or get_slice rejected a batch that extends past the
region. -/
inductive GmError where
  | WriteFailed
  | InvalidBackendAddress
deriving DecidableEq

/-- vstate/memory.rs MemoryError, restricted to the variants the modelled
paths produce. -/
inductive MemoryError where
  | WriteMemory (e : GmError)
  | PageSize
deriving DecidableEq

/-- Observable state threaded through dump_dirty: the running writer_offset,
the count of write calls attempted so far (used to inject write failures),
the seek targets issued and the (file offset, byte length) writes
completed, in order. -/
structure DumpSt where
  writerOffset : Nat
  widx : Nat
  seeks : List Nat
  writes : List (Nat × Nat)
deriving DecidableEq

/-- One write_all_volatile of a batch (vstate/memory.rs, dump_dirty):
get_slice(dirty_batch_start, write_size) fails with InvalidBackendAddress
when the batch extends past the region; otherwise the write succeeds unless
the injected failure predicate fails this write index. The write lands at
the position established by the batch-start seek, writer_offset +
dirty_batch_start. -/
def batchWrite (failAt : Nat → Bool) (regionLen bs ws : Nat) (st : DumpSt) :
    Except (GmError × DumpSt) DumpSt :=
  if bs + ws ≤ regionLen then
    if failAt st.widx then
      Except.error (GmError.WriteFailed, { st with widx := st.widx + 1 })
    else
      Except.ok { st with
        widx := st.widx + 1,
        writes := st.writes ++ [(st.writerOffset + bs, ws)] }
  else Except.error (GmError.InvalidBackendAddress, st)

/-- The per-page loop of dump_dirty over one region (vstate/memory.rs): the
page list enumerates the bit positions of the hypervisor words in order
(word index i, bit j, page p = i * 64 + j); ws and bs are the source's
write_size and dirty_batch_start. A dirty page opens a batch (issuing the
seek) or extends the current one; a clean page after a batch flushes it. -/
def dumpPages (failAt : Nat → Bool) (words : List Nat)
    (bm : Option (List Bool)) (regionLen ps : Nat) :
    List Nat → Nat → Nat → DumpSt →
    Except (GmError × DumpSt) (Nat × Nat × DumpSt)
  | [], ws, bs, st => Except.ok (ws, bs, st)
  | p :: rest, ws, bs, st =>
    let kvmD := kvmPageDirty words p
    let pageOffset := p * ps
    let fcD := dirtyAt bm pageOffset ps
    if kvmD || fcD then
      if ws = 0 then
        dumpPages failAt words bm regionLen ps rest ps pageOffset
          { st with seeks := st.seeks ++ [st.writerOffset + pageOffset] }
      else
        dumpPages failAt words bm regionLen ps rest (ws + ps) bs st
    else
      if ws > 0 then
        match batchWrite failAt regionLen bs ws st with
        | Except.error e => Except.error e
        | Except.ok st' => dumpPages failAt words bm regionLen ps rest 0 bs st'
      else
        dumpPages failAt words bm regionLen ps rest ws bs st

/-- dump_dirty's body for one region (vstate/memory.rs): run the page loop
over all bits of the hypervisor words, flush the final batch if one is
open, then advance writer_offset by the region length. -/
def dumpRegion (failAt : Nat → Bool) (r : DRegion) (words : List Nat)
    (ps : Nat) (st : DumpSt) : Except (GmError × DumpSt) DumpSt :=
  match dumpPages failAt words r.bitmap r.len ps
      (List.range (64 * words.length)) 0 0 st with
  | Except.error e => Except.error e
  | Except.ok (ws, bs, st') =>
    match (if 0 < ws then batchWrite failAt r.len bs ws st'
           else Except.ok st') with
    | Except.error e => Except.error e
    | Except.ok st'' =>
      Except.ok { st'' with writerOffset := st''.writerOffset + r.len }

/-- The try_for_each over regions of dump_dirty (vstate/memory.rs). The
hypervisor bitmap db (vmm DirtyBitmap, a HashMap from slot to the Vec of
64-bit words) is modelled as an association list; a missing slot makes the
source's unwrap panic, modelled as none. -/
def dumpRegions (failAt : Nat → Bool) (db : List (Nat × List Nat))
    (ps : Nat) :
    List DRegion → DumpSt → Option (Except (GmError × DumpSt) DumpSt)
  | [], st => some (Except.ok st)
  | r :: rest, st =>
    match db.lookup r.slot with
    | none => none
    | some words =>
      match dumpRegion failAt r words ps st with
      | Except.error e => some (Except.error e)
      | Except.ok st' => dumpRegions failAt db ps rest st'

/-- mark_dirty of the optional AtomicBitmap (vm-memory set_addr_range):
sets every page bit from offset / ps through (offset + len - 1) / ps,
indices past the bitmap ignored; len = 0 marks nothing; none is a no-op. -/
def bitmapMarkDirty (bm : Option (List Bool)) (offset len ps : Nat) :
    Option (List Bool) :=
  bm.map (fun l =>
    if len = 0 then l
    else
      l.mapIdx (fun i b =>
        if offset / ps ≤ i ∧ i ≤ (offset + len - 1) / ps then true else b))

/-- The per-region loop body of store_dirty_bitmap (vstate/memory.rs):
marks every page the hypervisor words report dirty into the monitor-owned
bitmap, one page at a time. -/
def storeRegionBitmap (words : List Nat) (bm : Option (List Bool))
    (ps : Nat) : Option (List Bool) :=
  (List.range (64 * words.length)).foldl
    (fun acc p =>
      if kvmPageDirty words p then bitmapMarkDirty acc (p * ps) 1 ps else acc)
    bm

/-- store_dirty_bitmap (vstate/memory.rs): folds the hypervisor bitmap into
every region's monitor-owned bitmap; a region whose slot is missing from
the map makes the source's unwrap panic, modelled as none. -/
def store_dirty_bitmap (db : List (Nat × List Nat)) (ps : Nat) :
    List DRegion → Option (List DRegion)
  | [] => some []
  | r :: rest =>
    match db.lookup r.slot with
    | none => none
    | some words =>
      match store_dirty_bitmap db ps rest with
      | none => none
      | some rest' =>
        some ({ r with bitmap := storeRegionBitmap words r.bitmap ps } :: rest')

/-- reset_dirty (vstate/memory.rs): resets every region's monitor-owned
bitmap to all-clean. -/
def reset_dirty (regions : List DRegion) : List DRegion :=
  regions.map (fun r =>
    { r with bitmap := r.bitmap.map (fun l => l.map (fun _ => false)) })

/-- Observable outcome of dump_dirty: a panic (missing slot), or the seeks
and writes issued together with the region list carrying the post-dump
bitmaps. -/
inductive DumpOutcome where
  | panic
  | ok (seeks : List Nat) (writes : List (Nat × Nat)) (regions : List DRegion)
  | error (e : MemoryError) (seeks : List Nat) (writes : List (Nat × Nat))
      (regions : List DRegion)
deriving DecidableEq

/-- dump_dirty (vstate/memory.rs): run the region loop from writer_offset 0;
on success reset every monitor-owned bitmap, on failure fold the hypervisor
bitmap into the monitor-owned bitmaps via store_dirty_bitmap and wrap the
error as WriteMemory. The page size is a parameter (the source obtains it
from the host and fails with PageSize only when that syscall fails, a path
outside this model). -/
def dump_dirty (failAt : Nat → Bool) (regions : List DRegion)
    (db : List (Nat × List Nat)) (ps : Nat) : DumpOutcome :=
  match dumpRegions failAt db ps regions
      { writerOffset := 0, widx := 0, seeks := [], writes := [] } with
  | none => DumpOutcome.panic
  | some (Except.ok st) =>
    DumpOutcome.ok st.seeks st.writes (reset_dirty regions)
  | some (Except.error (e, st)) =>
    match store_dirty_bitmap db ps regions with
    | none => DumpOutcome.panic
    | some regions' =>
      DumpOutcome.error (MemoryError.WriteMemory e) st.seeks st.writes regions'

/-- Pure mirror of the batching scan of dump_dirty's page loop, used to
reason about the batches: returns the open write_size, the open
dirty_batch_start, the closed batches (region-relative offset, size) in
order, and the region-relative seek targets issued (one per batch, at batch
start). -/
def scanPages (d : Nat → Bool) (ps : Nat) :
    List Nat → Nat → Nat → List (Nat × Nat) → List Nat →
    Nat × Nat × List (Nat × Nat) × List Nat
  | [], ws, bs, log, seeks => (ws, bs, log, seeks)
  | p :: rest, ws, bs, log, seeks =>
    if d p then
      if ws = 0 then scanPages d ps rest ps (p * ps) log (seeks ++ [p * ps])
      else scanPages d ps rest (ws + ps) bs log seeks
    else
      if 0 < ws then scanPages d ps rest 0 bs (log ++ [(bs, ws)]) seeks
      else scanPages d ps rest ws bs log seeks

/-- Batches of a finished region scan: the closed batches followed by the
still-open one, if any. -/
def finalLog (ws bs : Nat) (log : List (Nat × Nat)) : List (Nat × Nat) :=
  log ++ (if 0 < ws then [(bs, ws)] else [])

/-- Invariant of the batching scan after processing pages [0, p): the open
batch (if any) is the run of dirty pages ending at p with a clean page (or
nothing) before it; the closed batches are exactly the maximal dirty runs
closed by a clean page before p; a processed page is covered by a closed
batch or by the open batch iff it is dirty; and the seeks issued are the
starts of all batches, closed then open, in order. -/
def ScanInv (d : Nat → Bool) (ps p ws bs : Nat) (log : List (Nat × Nat))
    (seeks : List Nat) : Prop :=
  (ws = 0 → (p = 0 ∨ d (p - 1) = false)) ∧
  (0 < ws → ∃ s, bs = s * ps ∧ ws = (p - s) * ps ∧ s < p ∧
      (∀ q, s ≤ q → q < p → d q = true) ∧ (s = 0 ∨ d (s - 1) = false)) ∧
  (∀ b ∈ log, ∃ s k, b = (s * ps, k * ps) ∧ 1 ≤ k ∧ s + k < p ∧
      (∀ q, s ≤ q → q < s + k → d q = true) ∧
      (s = 0 ∨ d (s - 1) = false) ∧ d (s + k) = false) ∧
  (∀ q, q < p → (d q = true ↔
      ((∃ b ∈ log, b.1 ≤ q * ps ∧ (q + 1) * ps ≤ b.1 + b.2) ∨
       (0 < ws ∧ bs ≤ q * ps ∧ q * ps < bs + ws)))) ∧
  seeks = (finalLog ws bs log).map Prod.fst

/-- Sum of the lengths of the regions preceding index i in iteration
order: the writer_offset at which region i's pages are written. -/
def offsetBefore (regions : List DRegion) (i : Nat) : Nat :=
  ((regions.take i).map DRegion.len).sum

/-- The batches of one region are exactly the maximal runs of dirty pages,
placed at woff + page offset: every batch is a nonempty run of jointly
dirty pages whose neighbours (inside the iterated range) are clean, and a
page is covered by some batch iff it is dirty. -/
def RegionBatches (d : Nat → Bool) (ps n woff : Nat)
    (log : List (Nat × Nat)) : Prop :=
  (∀ b ∈ log, ∃ s k, b = (woff + s * ps, k * ps) ∧ 1 ≤ k ∧ s + k ≤ n ∧
      (∀ q, s ≤ q → q < s + k → d q = true) ∧
      (s = 0 ∨ d (s - 1) = false) ∧
      (s + k = n ∨ d (s + k) = false)) ∧
  (∀ p, p < n →
    (d p = true ↔
      ∃ b ∈ log, b.1 ≤ woff + p * ps ∧ woff + (p + 1) * ps ≤ b.1 + b.2))

/-! ## Guest-address based access and mark_dirty (vstate/memory.rs) -/

/-- A region of the collection as the address-based access paths see it:
guest-physical start address, byte length, and the optional monitor-owned
dirty bitmap. -/
structure GRegion where
  start : Nat
  len : Nat
  bitmap : Option (List Bool)
deriving DecidableEq

/-- Modelled from the spec: find(guest_addr) of the guest memory collection
(section 4.B; the vendored GuestRegionCollection implementation is not
under src/). Returns the index and the first region containing the
address. -/
def findRegion : List GRegion → Nat → Option (Nat × GRegion)
  | [], _ => none
  | r :: rest, addr =>
    if r.start ≤ addr ∧ addr < r.start + r.len then some (0, r)
    else (findRegion rest addr).map (fun p => (p.1 + 1, p.2))

/-- Modelled from the spec: the try_access loop of the guest memory
collection (section 4.B: invoke f over at most count bytes, spanning
contiguous regions, stopping at the first gap or when f returns 0),
inlined with the closure mark_dirty passes to it (vstate/memory.rs,
mark_dirty: mark the chunk in the region's bitmap and return the chunk
length). cur is the cursor guest address and total the bytes processed so
far. The fuel bounds the iteration count; mem.length + 1 always suffices
because every iteration except the last exhausts one region. -/
def markDirtyLoop (ps : Nat) : Nat → List GRegion → Nat → Nat → Nat → List GRegion
  | 0, mem, _, _, _ => mem
  | fuel + 1, mem, count, cur, total =>
    match findRegion mem cur with
    | none => mem
    | some (i, r) =>
      let startOff := cur - r.start
      let cap := r.len - startOff
      let chunk := min cap (count - total)
      if chunk = 0 then mem
      else
        let mem' := mem.set i
          { r with bitmap := bitmapMarkDirty r.bitmap startOff chunk ps }
        if total + chunk = count then mem'
        else markDirtyLoop ps fuel mem' count (cur + chunk) (total + chunk)

/-- mark_dirty (vstate/memory.rs): try_access over [addr, addr + len) with
the bitmap-marking closure. -/
def mark_dirty (mem : List GRegion) (addr len ps : Nat) : List GRegion :=
  markDirtyLoop ps (mem.length + 1) mem len addr 0

/-- Concrete handler used to exercise the 2 MiB fault-size configuration of
the handler (valid_2m_handler.rs: page_size 4096, fault_size 2 MiB): one
region of two 4 KiB pages at host address 0 with file offset 0. -/
def cexH0 : UffdPfHandler :=
  { mem_regions := create_mem_regions [⟨0, 8192, 0⟩] 4096,
    page_size := 4096, backing_buffer := 1000000000 }

/-- Concrete handler exhibiting the populate_from_file copy parameters: one
region of two 4 KiB pages at host address 0x10000 with file offset 0x1000. -/
def bugH : UffdPfHandler :=
  { mem_regions := create_mem_regions [⟨65536, 8192, 4096⟩] 4096,
    page_size := 4096, backing_buffer := 0 }

end FcMem

/-! ## Theorems -/

namespace FcMem

def c2Regions : List DRegion :=
  [⟨0, 8192, some [false, false]⟩, ⟨1, 8192, some [false, false]⟩]

def c2Db : List (Nat × List Nat) := [(0, [1]), (1, [2])]

/-- Default region for index-based access to the collection. -/
def gdflt : GRegion := ⟨0, 0, none⟩

/-- Concrete two-region collection (page size 4): bytes [0, 8) with a clean
two-page bitmap, then bytes [8, 12) with its single page already dirty. -/
def cmem6 : List GRegion :=
  [⟨0, 8, some [false, false]⟩, ⟨8, 4, some [true]⟩]

/-- State of a guest memory region saved to file/buffer
(vstate/memory.rs, GuestMemoryRegionState): the stable persisted fields
base_address (u64, the guest-physical base) and size (usize). -/
structure GuestMemoryRegionState where
  base_address : Nat
  size : Nat
deriving DecidableEq

/-- Describes guest memory regions and their snapshot file mappings
(vstate/memory.rs, GuestMemoryState): an ordered list of region states. -/
structure GuestMemoryState where
  regions : List GuestMemoryRegionState
deriving DecidableEq

/-- describe of GuestMemoryExtension (vstate/memory.rs): walk the
collection's regions in iteration order, pushing
{base_address: region.start_addr().0, size: region.len()} for each. A
region of the collection is its (start_addr, len) pair here. -/
def describe (regions : List (Nat × Nat)) : GuestMemoryState :=
  ⟨regions.map (fun r => ⟨r.1, r.2⟩)⟩

/-- Modelled from the spec: the persisted encoding of a 64-bit field of
the memory-state descriptor (section 3: the descriptor is format-stable
and round-trips; the derived serializer itself is generated by the serde
framework outside this repository). Little-endian, one byte per entry. -/
def u64LeBytes (x : Nat) : List Nat :=
  (List.range 8).map (fun i => x / 256 ^ i % 256)

/-- Little-endian byte-list decoding. -/
def leBytesToNat (bs : List Nat) : Nat :=
  bs.foldr (fun b acc => b + 256 * acc) 0

/-- Modelled from the spec: serialized form of one region entry — the
base_address field followed by the size field. -/
def serializeRegion (r : GuestMemoryRegionState) : List Nat :=
  u64LeBytes r.base_address ++ u64LeBytes r.size

/-- Modelled from the spec: serialized form of the memory-state
descriptor — the entry count followed by the entries in list order. -/
def serializeState (s : GuestMemoryState) : List Nat :=
  u64LeBytes s.regions.length ++
    s.regions.foldr (fun r acc => serializeRegion r ++ acc) []

/-- Decode one 64-bit field, returning the value and the remaining
bytes. -/
def deserializeU64 (bs : List Nat) : Option (Nat × List Nat) :=
  if 8 ≤ bs.length then some (leBytesToNat (bs.take 8), bs.drop 8) else none

/-- Decode n region entries, requiring the input to be fully consumed. -/
def deserializeRegions : Nat → List Nat → Option (List GuestMemoryRegionState)
  | 0, bs => if bs.isEmpty then some [] else none
  | n + 1, bs =>
    match deserializeU64 bs with
    | none => none
    | some (base, bs1) =>
      match deserializeU64 bs1 with
      | none => none
      | some (size, bs2) =>
        (deserializeRegions n bs2).map (fun rest => ⟨base, size⟩ :: rest)

/-- Modelled from the spec: deserializer of the memory-state
descriptor. -/
def deserializeState (bs : List Nat) : Option GuestMemoryState :=
  match deserializeU64 bs with
  | none => none
  | some (n, bs1) => (deserializeRegions n bs1).map (fun rs => ⟨rs⟩)

/-! ## MaybeBounce (vstate/memory.rs): bounce-buffered reads and writes

The generic target (ReadVolatile / WriteVolatile) is modelled
deterministically: a reader is a byte stream that yields
min(requested, available) bytes from its front; a writer is a sink with a
remaining byte capacity that accepts min(offered, capacity) bytes. -/

/-- The read_volatile loop of an activated MaybeBounce (vstate/memory.rs):
with bounce buffer size bbufLen, repeatedly request
how_much = min(remaining, bbufLen) bytes from the target into the bounce
buffer, copy them into the destination, and stop on a short read. Returns
(bytes delivered to the destination, remaining stream, sizes requested
from the target). The bbufLen = 0 branch is unreachable in the source:
the on-demand buffer has the request's size, so an empty bounce buffer
means an empty request and the loop is never entered. -/
def bounceReadLoop (bbufLen remaining : Nat) (stream : List Nat) :
    List Nat × List Nat × List Nat :=
  if h0 : remaining = 0 then ([], stream, [])
  else if h1 : bbufLen = 0 then ([], stream, [])
  else
    let how_much := min remaining bbufLen
    let chunk := stream.take how_much
    let n := chunk.length
    if n < how_much then (chunk, stream.drop n, [how_much])
    else
      let rest := bounceReadLoop bbufLen (remaining - how_much) (stream.drop how_much)
      (chunk ++ rest.1, rest.2.1, how_much :: rest.2.2)
termination_by remaining
decreasing_by simp_wf; omega

/-- The write_volatile loop of an activated MaybeBounce (vstate/memory.rs):
copy how_much = min(buf.len, bbufLen) bytes into the bounce buffer, offer
them to the target, advance by the n bytes accepted, and stop on a short
write. Returns (bytes accepted by the target, remaining capacity, sizes
offered to the target). -/
def bounceWriteLoop (bbufLen cap : Nat) (buf : List Nat) :
    List Nat × Nat × List Nat :=
  if h0 : buf.length = 0 then ([], cap, [])
  else if h1 : bbufLen = 0 then ([], cap, [])
  else
    let how_much := min buf.length bbufLen
    let n := min how_much cap
    if n < how_much then (buf.take n, cap - n, [how_much])
    else
      let rest := bounceWriteLoop bbufLen (cap - n) (buf.drop n)
      (buf.take n ++ rest.1, rest.2.1, how_much :: rest.2.2)
termination_by buf.length
decreasing_by simp_wf; omega

/-- read_volatile of MaybeBounce with the bounce buffer activated: a
persistent buffer of size N, or an on-demand buffer of the request's size
when N = 0. -/
def read_volatile_bounced (N bufLen : Nat) (stream : List Nat) :
    List Nat × List Nat × List Nat :=
  bounceReadLoop (if N = 0 then bufLen else N) bufLen stream

/-- write_volatile of MaybeBounce with the bounce buffer activated. -/
def write_volatile_bounced (N cap : Nat) (buf : List Nat) :
    List Nat × Nat × List Nat :=
  bounceWriteLoop (if N = 0 then buf.length else N) cap buf

/-- The unbounced path of read_volatile: a single direct target read of
the whole request. -/
def read_volatile_direct (bufLen : Nat) (stream : List Nat) :
    List Nat × List Nat :=
  (stream.take bufLen, stream.drop bufLen)

/-- The unbounced path of write_volatile: a single direct target write of
the whole buffer. -/
def write_volatile_direct (cap : Nat) (buf : List Nat) : List Nat × Nat :=
  (buf.take cap, cap - buf.length)

/-- The bitmask the handler applies to a fault address agrees with rounding
down to a fault_size boundary, for power-of-two fault sizes and 64-bit
addresses. -/
theorem pageBaseMask_two_pow (k addr : Nat) (hk : k ≤ 64) (ha : addr < 2 ^ 64) :
    pageBaseMask addr (2 ^ k) = 2 ^ k * (addr / 2 ^ k) := by
  have hmask : notU64 (2 ^ k - 1) = (2 ^ (64 - k) - 1) <<< k := by
    rw [Nat.shiftLeft_eq]
    have h1 : (2 : Nat) ^ 64 = 2 ^ (64 - k) * 2 ^ k := by
      rw [← pow_add]; congr 1; omega
    have h2 : (1 : Nat) ≤ 2 ^ k := Nat.one_le_two_pow
    have h3 : (1 : Nat) ≤ 2 ^ (64 - k) := Nat.one_le_two_pow
    unfold notU64
    rw [Nat.sub_mul, one_mul]
    omega
  have hdiv : 2 ^ k * (addr / 2 ^ k) = (addr >>> k) <<< k := by
    rw [Nat.shiftRight_eq_div_pow, Nat.shiftLeft_eq, Nat.mul_comm]
  unfold pageBaseMask
  rw [hmask, hdiv]
  apply Nat.eq_of_testBit_eq
  intro i
  rw [Nat.testBit_land, Nat.testBit_shiftLeft, Nat.testBit_shiftLeft,
      Nat.testBit_shiftRight, Nat.testBit_two_pow_sub_one]
  by_cases hik : i ≥ k
  · by_cases hi64 : i < 64
    · have he : k + (i - k) = i := by omega
      have h1 : decide (i ≥ k) = true := by simp [hik]
      have h2 : decide (i - k < 64 - k) = true := by simp; omega
      rw [he, h1, h2]
      simp
    · have hbit : addr.testBit i = false :=
        Nat.testBit_lt_two_pow
          (lt_of_lt_of_le ha (Nat.pow_le_pow_right (by norm_num) (by omega)))
      have h2 : decide (i - k < 64 - k) = false := by simp; omega
      have he : k + (i - k) = i := by omega
      rw [hbit, h2, he, hbit]
      simp
  · have h1 : decide (i ≥ k) = false := by simp [hik]
    rw [h1]
    simp

/-- update_mem_state_mappings realises the per-page update predicate. -/
theorem update_mem_state_pageMapSpec (h : UffdPfHandler) (lo hi : Nat)
    (tgt : MemPageState) :
    pageMapSpec h (update_mem_state_mappings h lo hi tgt) lo hi tgt := by
  refine ⟨rfl, rfl, by simp [update_mem_state_mappings], ?_⟩
  intro i hi1 hi2
  refine ⟨?_, ?_, ?_⟩
  · simp [update_mem_state_mappings]
  · simp [update_mem_state_mappings]
  · intro j hj1 hj2
    simp [update_mem_state_mappings]

/-- C4 (amended): one event-loop step of the fault handler. For a Pagefault
at addr, the state of the tracked page at the fault_size-aligned base decides
the action: Uninitialized or FromFile issue the copy the source performs and
move every tracked page in the touched [base, base+fault_size) range to
FromFile; Removed or Anonymous issue a zero of the range and move every
tracked page in it to Anonymous. A Remove event over [start, stop) moves
every tracked page in that range to Removed from any state and issues no
fault-channel operation. Pages outside the event's range never change, and
any other event kind is fatal. -/
theorem uffd_state_machine (h : UffdPfHandler) (fs k addr start stop : Nat)
    (r : MemRegion) (s : MemPageState)
    (hfs : fs = 2 ^ k) (hk : k ≤ 64) (ha : addr < 2 ^ 64) :
    (lookupRegionState h.mem_regions (fs * (addr / fs)) = some (r, s) →
      ∃ h' ops,
        handle_event h fs (UffdEvent.Pagefault addr) = some (h', ops) ∧
        ((s = MemPageState.Uninitialized ∨ s = MemPageState.FromFile) →
          ops = [UffdOp.copy h.backing_buffer r.mapping.base_host_virt_addr
                   r.mapping.size] ∧
          pageMapSpec h h' (fs * (addr / fs)) (fs * (addr / fs) + fs)
            MemPageState.FromFile) ∧
        ((s = MemPageState.Removed ∨ s = MemPageState.Anonymous) →
          ops = [UffdOp.zero (fs * (addr / fs)) fs] ∧
          pageMapSpec h h' (fs * (addr / fs)) (fs * (addr / fs) + fs)
            MemPageState.Anonymous)) ∧
    (∃ h', handle_event h fs (UffdEvent.Remove start stop) = some (h', []) ∧
      pageMapSpec h h' start stop MemPageState.Removed) ∧
    handle_event h fs UffdEvent.Other = none := by
  have hmask : pageBaseMask addr fs = fs * (addr / fs) := by
    rw [hfs]; exact pageBaseMask_two_pow k addr hk ha
  refine ⟨?_, ⟨_, rfl, update_mem_state_pageMapSpec h start stop _⟩, rfl⟩
  intro hl
  cases s
  case Uninitialized =>
    refine ⟨update_mem_state_mappings h (fs * (addr / fs)) (fs * (addr / fs) + fs)
              MemPageState.FromFile,
            [UffdOp.copy h.backing_buffer r.mapping.base_host_virt_addr
              r.mapping.size], ?_, ?_, ?_⟩
    · show serve_pf h addr fs = _
      simp only [serve_pf, hmask, hl, populate_from_file, zero_out]
    · intro _
      exact ⟨rfl, update_mem_state_pageMapSpec h _ _ _⟩
    · rintro (habs | habs) <;> exact absurd habs (by simp)
  case FromFile =>
    refine ⟨update_mem_state_mappings h (fs * (addr / fs)) (fs * (addr / fs) + fs)
              MemPageState.FromFile,
            [UffdOp.copy h.backing_buffer r.mapping.base_host_virt_addr
              r.mapping.size], ?_, ?_, ?_⟩
    · show serve_pf h addr fs = _
      simp only [serve_pf, hmask, hl, populate_from_file, zero_out]
    · intro _
      exact ⟨rfl, update_mem_state_pageMapSpec h _ _ _⟩
    · rintro (habs | habs) <;> exact absurd habs (by simp)
  case Removed =>
    refine ⟨update_mem_state_mappings h (fs * (addr / fs)) (fs * (addr / fs) + fs)
              MemPageState.Anonymous,
            [UffdOp.zero (fs * (addr / fs)) fs], ?_, ?_, ?_⟩
    · show serve_pf h addr fs = _
      simp only [serve_pf, hmask, hl, populate_from_file, zero_out]
    · rintro (habs | habs) <;> exact absurd habs (by simp)
    · intro _
      exact ⟨rfl, update_mem_state_pageMapSpec h _ _ _⟩
  case Anonymous =>
    refine ⟨update_mem_state_mappings h (fs * (addr / fs)) (fs * (addr / fs) + fs)
              MemPageState.Anonymous,
            [UffdOp.zero (fs * (addr / fs)) fs], ?_, ?_, ?_⟩
    · show serve_pf h addr fs = _
      simp only [serve_pf, hmask, hl, populate_from_file, zero_out]
    · rintro (habs | habs) <;> exact absurd habs (by simp)
    · intro _
      exact ⟨rfl, update_mem_state_pageMapSpec h _ _ _⟩

end FcMem

namespace FcMem

/-- C1: evaluation of the fault handler at a concrete fault. For the region
at host base 0x10000 (size 0x2000, file offset 0x1000) and a fault on its
second page (0x11000, fault_size 0x1000), serve_pf issues a copy of the full
region size 0x2000 from backing-file offset 0 into the region base 0x10000,
whereas the specified operation is a copy of fault_size 0x1000 bytes from
file offset region.offset + (page_base - region.base) = 0x2000 into the
faulting page 0x11000; the two differ. -/
theorem populate_copy_diverges :
    (serve_pf bugH 69632 4096).map Prod.snd = some [UffdOp.copy 0 65536 8192] ∧
    (lookupRegionState bugH.mem_regions 69632).map
      (fun p => specCopyOp bugH p.1 69632 4096) =
      some (UffdOp.copy 8192 69632 4096) ∧
    (serve_pf bugH 69632 4096).map Prod.snd ≠
      (lookupRegionState bugH.mem_regions 69632).map
        (fun p => [specCopyOp bugH p.1 69632 4096]) := by
  refine ⟨by decide, by decide, by decide⟩

/-- C4 (counterexample to the claim as stated): under the 2 MiB fault-size
configuration of valid_2m_handler.rs, after a Remove of the second 4 KiB
page of a region, a Pagefault on that page takes it from Removed to
FromFile (the action is decided by the state of the 2 MiB-aligned base
page), not to Anonymous as the section 4.F table requires for a Removed
page. -/
theorem uffd_table_counterexample :
    ((handle_event cexH0 (2 ^ 21) (UffdEvent.Remove 4096 8192)).map
      (fun p => handlerStateAt p.1 4096)) = some (some MemPageState.Removed) ∧
    ((handle_event cexH0 (2 ^ 21) (UffdEvent.Remove 4096 8192)).bind
      (fun p => handle_event p.1 (2 ^ 21) (UffdEvent.Pagefault 4096))).map
        (fun p => handlerStateAt p.1 4096) =
      some (some MemPageState.FromFile) ∧
    MemPageState.FromFile ≠ MemPageState.Anonymous := by
  refine ⟨by decide, by decide, by decide⟩

/-- Witness for uffd_state_machine at the 4 KiB configuration: a fault at
address 4097 is served from the page at 4096. -/
theorem uffd_state_machine_witness :
    (4096 = 2 ^ 12 ∧ 12 ≤ 64 ∧ 4097 < 2 ^ 64) ∧
    ((lookupRegionState cexH0.mem_regions (4096 * (4097 / 4096)) =
        some ({ mapping := ⟨0, 8192, 0⟩,
                page_states := [(0, MemPageState.Uninitialized),
                                (4096, MemPageState.Uninitialized)] },
              MemPageState.Uninitialized) →
      ∃ h' ops,
        handle_event cexH0 4096 (UffdEvent.Pagefault 4097) = some (h', ops) ∧
        ((MemPageState.Uninitialized = MemPageState.Uninitialized ∨
          MemPageState.Uninitialized = MemPageState.FromFile) →
          ops = [UffdOp.copy cexH0.backing_buffer 0 8192] ∧
          pageMapSpec cexH0 h' (4096 * (4097 / 4096))
            (4096 * (4097 / 4096) + 4096) MemPageState.FromFile) ∧
        ((MemPageState.Uninitialized = MemPageState.Removed ∨
          MemPageState.Uninitialized = MemPageState.Anonymous) →
          ops = [UffdOp.zero (4096 * (4097 / 4096)) 4096] ∧
          pageMapSpec cexH0 h' (4096 * (4097 / 4096))
            (4096 * (4097 / 4096) + 4096) MemPageState.Anonymous)) ∧
    (∃ h', handle_event cexH0 4096 (UffdEvent.Remove 0 4096) = some (h', []) ∧
      pageMapSpec cexH0 h' 0 4096 MemPageState.Removed) ∧
    handle_event cexH0 4096 UffdEvent.Other = none) :=
  ⟨⟨by decide, by decide, by decide⟩,
   uffd_state_machine cexH0 4096 12 4097 0 4096
     { mapping := ⟨0, 8192, 0⟩,
       page_states := [(0, MemPageState.Uninitialized),
                       (4096, MemPageState.Uninitialized)] }
     MemPageState.Uninitialized (by decide) (by decide) (by decide)⟩

end FcMem

namespace FcMem

/-- Step characterization of the create-VM retry loop: a successful call
returns the created VM, a non-interrupted error aborts with CreateVm, an
interrupted error below the attempt cap sleeps 2^(attempt-1) microseconds
and retries, and an interrupted error at the cap aborts with CreateVm. -/
theorem create_vm_loop_decided (f : Nat → CreateAttempt) (a : Nat) (sl : List Nat) :
    (f a = CreateAttempt.ok → create_vm_loop f a sl = (CreateOutcome.created a, sl)) ∧
    (f a = CreateAttempt.fatal →
      create_vm_loop f a sl = (CreateOutcome.createVm false, sl)) ∧
    (f a = CreateAttempt.eintr → a < MAX_ATTEMPTS →
      create_vm_loop f a sl = create_vm_loop f (a + 1) (sl ++ [2 ^ (a - 1)])) ∧
    (f a = CreateAttempt.eintr → ¬ a < MAX_ATTEMPTS →
      create_vm_loop f a sl = (CreateOutcome.createVm true, sl)) := by
  refine ⟨?_, ?_, ?_, ?_⟩
  · intro h1
    conv_lhs => rw [create_vm_loop]
    rw [h1]
  · intro h1
    conv_lhs => rw [create_vm_loop]
    rw [h1]
  · intro h1 h2
    conv_lhs => rw [create_vm_loop]
    rw [h1]
    simp [h2]
  · intro h1 h2
    conv_lhs => rw [create_vm_loop]
    rw [h1]
    simp [h2]

/-- C8: VM creation makes at most 5 create-VM attempts; if the first n-1
attempts return EINTR then the sleeps performed so far are 1, 2, ...,
2^(n-2) microseconds; a success on attempt n returns the created VM, a
non-interrupted error on attempt n aborts immediately with CreateVm, and
five interrupted attempts abort with CreateVm after sleeping exactly
1, 2, 4, 8 microseconds. -/
theorem create_vm_retry (f : Nat → CreateAttempt) (n : Nat)
    (h1 : 1 ≤ n) (h5 : n ≤ 5)
    (hpre : ∀ i, 1 ≤ i → i < n → f i = CreateAttempt.eintr) :
    (f n = CreateAttempt.ok →
      create_common f = (CreateOutcome.created n, (List.range (n - 1)).map (2 ^ ·))) ∧
    (f n = CreateAttempt.fatal →
      create_common f = (CreateOutcome.createVm false, (List.range (n - 1)).map (2 ^ ·))) ∧
    ((∀ i, 1 ≤ i → i ≤ 5 → f i = CreateAttempt.eintr) →
      create_common f = (CreateOutcome.createVm true, [1, 2, 4, 8])) := by
  have step := fun a sl => create_vm_loop_decided f a sl
  refine ⟨?_, ?_, ?_⟩
  · intro hok
    unfold create_common
    interval_cases n
    · rw [(step 1 []).1 hok]
      decide
    · rw [(step 1 []).2.2.1 (hpre 1 (by omega) (by omega)) (by decide),
          (step 2 _).1 hok]
      decide
    · rw [(step 1 []).2.2.1 (hpre 1 (by omega) (by omega)) (by decide),
          (step 2 _).2.2.1 (hpre 2 (by omega) (by omega)) (by decide),
          (step 3 _).1 hok]
      decide
    · rw [(step 1 []).2.2.1 (hpre 1 (by omega) (by omega)) (by decide),
          (step 2 _).2.2.1 (hpre 2 (by omega) (by omega)) (by decide),
          (step 3 _).2.2.1 (hpre 3 (by omega) (by omega)) (by decide),
          (step 4 _).1 hok]
      decide
    · rw [(step 1 []).2.2.1 (hpre 1 (by omega) (by omega)) (by decide),
          (step 2 _).2.2.1 (hpre 2 (by omega) (by omega)) (by decide),
          (step 3 _).2.2.1 (hpre 3 (by omega) (by omega)) (by decide),
          (step 4 _).2.2.1 (hpre 4 (by omega) (by omega)) (by decide),
          (step 5 _).1 hok]
      decide
  · intro hok
    unfold create_common
    interval_cases n
    · rw [(step 1 []).2.1 hok]
      decide
    · rw [(step 1 []).2.2.1 (hpre 1 (by omega) (by omega)) (by decide),
          (step 2 _).2.1 hok]
      decide
    · rw [(step 1 []).2.2.1 (hpre 1 (by omega) (by omega)) (by decide),
          (step 2 _).2.2.1 (hpre 2 (by omega) (by omega)) (by decide),
          (step 3 _).2.1 hok]
      decide
    · rw [(step 1 []).2.2.1 (hpre 1 (by omega) (by omega)) (by decide),
          (step 2 _).2.2.1 (hpre 2 (by omega) (by omega)) (by decide),
          (step 3 _).2.2.1 (hpre 3 (by omega) (by omega)) (by decide),
          (step 4 _).2.1 hok]
      decide
    · rw [(step 1 []).2.2.1 (hpre 1 (by omega) (by omega)) (by decide),
          (step 2 _).2.2.1 (hpre 2 (by omega) (by omega)) (by decide),
          (step 3 _).2.2.1 (hpre 3 (by omega) (by omega)) (by decide),
          (step 4 _).2.2.1 (hpre 4 (by omega) (by omega)) (by decide),
          (step 5 _).2.1 hok]
      decide
  · intro hall
    unfold create_common
    rw [(step 1 []).2.2.1 (hall 1 (by omega) (by omega)) (by decide),
        (step 2 _).2.2.1 (hall 2 (by omega) (by omega)) (by decide),
        (step 3 _).2.2.1 (hall 3 (by omega) (by omega)) (by decide),
        (step 4 _).2.2.1 (hall 4 (by omega) (by omega)) (by decide),
        (step 5 _).2.2.2 (hall 5 (by omega) (by omega)) (by decide)]
    decide

/-- Witness for create_vm_retry: two interrupted attempts followed by a
success on the third. -/
theorem create_vm_retry_witness :
    (1 ≤ 3 ∧ 3 ≤ 5 ∧ ∀ i, 1 ≤ i → i < 3 → retryF i = CreateAttempt.eintr) ∧
    ((retryF 3 = CreateAttempt.ok →
      create_common retryF =
        (CreateOutcome.created 3, (List.range (3 - 1)).map (2 ^ ·))) ∧
     (retryF 3 = CreateAttempt.fatal →
      create_common retryF =
        (CreateOutcome.createVm false, (List.range (3 - 1)).map (2 ^ ·))) ∧
     ((∀ i, 1 ≤ i → i ≤ 5 → retryF i = CreateAttempt.eintr) →
      create_common retryF = (CreateOutcome.createVm true, [1, 2, 4, 8]))) :=
  ⟨⟨by norm_num, by norm_num, by intro i hi1 hi2; interval_cases i <;> rfl⟩,
   create_vm_retry retryF 3 (by norm_num) (by norm_num)
     (by intro i hi1 hi2; interval_cases i <;> rfl)⟩

theorem buildCalls_length (rs : List VmRegion) (slot : Nat) :
    (buildCalls rs slot).length = rs.length := by
  induction rs generalizing slot with
  | nil => rfl
  | cons r rest ih => simp [buildCalls, ih]

theorem buildCalls_get (rs : List VmRegion) (slot : Nat) (j : Nat)
    (hj : j < rs.length) (hj2 : j < (buildCalls rs slot).length) :
    (buildCalls rs slot).get ⟨j, hj2⟩ =
      { slot := slot + j,
        flags := if (rs.get ⟨j, hj⟩).has_bitmap then KVM_MEM_LOG_DIRTY_PAGES else 0,
        guest_phys_addr := (rs.get ⟨j, hj⟩).guest_phys_addr,
        memory_size := (rs.get ⟨j, hj⟩).memory_size } := by
  induction rs generalizing slot j with
  | nil => exact absurd hj (by simp)
  | cons r rest ih =>
    cases j with
    | zero => simp [buildCalls]
    | succ j' =>
      have hj' : j' < rest.length := by simpa using hj
      have hj2' : j' < (buildCalls rest (slot + 1)).length := by
        rw [buildCalls_length]; exact hj'
      have := ih (slot + 1) j' hj' hj2'
      simp only [buildCalls, List.get_cons_succ, this]
      congr 1
      omega

theorem setRegionsGo_all_ok (hostOk : Nat → Bool) (hall : ∀ i, hostOk i = true)
    (rs : List VmRegion) (slot : Nat) (acc : List KvmUserspaceMemoryRegion) :
    setRegionsGo hostOk rs slot acc = (Except.ok (), acc ++ buildCalls rs slot) := by
  induction rs generalizing slot acc with
  | nil => simp [setRegionsGo, buildCalls]
  | cons r rest ih =>
    simp only [setRegionsGo, hall slot, if_true, buildCalls]
    rw [ih]
    simp

theorem issueRegions2_all_ok (hostOk : Nat → Bool) (hall : ∀ i, hostOk i = true)
    (cs : List KvmUserspaceMemoryRegion2) :
    issueRegions2 hostOk cs = (Except.ok (), cs) := by
  induction cs with
  | nil => rfl
  | cons c rest ih => simp [issueRegions2, hall c.slot, ih]

theorem memory_init_memfd_shared_ok (shared : List VmRegion2)
    (hostOk attrOk : Nat → Bool) (hall : ∀ i, hostOk i = true) :
    memory_init_memfd shared none hostOk attrOk =
      some (Except.ok (), memfdSlotted shared, []) := by
  simp only [memory_init_memfd, List.mapM_nil, Option.pure_def, Option.map_some',
    List.append_nil]
  rw [issueRegions2_all_ok hostOk hall]
  rfl

theorem memfdSlotted_length (shared : List VmRegion2) :
    (memfdSlotted shared).length = shared.length := by
  simp [memfdSlotted]

theorem memfdSlotted_get (shared : List VmRegion2) (j : Nat)
    (hj : j < shared.length) (hj2 : j < (memfdSlotted shared).length) :
    (memfdSlotted shared).get ⟨j, hj2⟩ =
      { kvmify (shared.get ⟨j, hj⟩) with slot := j } := by
  simp only [memfdSlotted, List.get_eq_getElem, List.getElem_map,
    List.getElem_zip, List.getElem_range, List.length_map]

/-- C5 (amended): the memory_init of vstate/vm.rs fails with
NotEnoughMemorySlots before issuing any host call whenever the region count
exceeds the host-reported slot capacity, and otherwise registers every
region with slot indices assigned densely from 0 in ascending iteration
order; the guest_memfd-variant memory_init of vstate/vm/mod.rs performs no
capacity check and registers all its regions, slots likewise dense from 0. -/
theorem memory_init_slot_check (max_memslots : Nat) (regions : List VmRegion)
    (hostOk : Nat → Bool) :
    (regions.length > max_memslots →
      memory_init max_memslots regions hostOk =
        (Except.error VmError.NotEnoughMemorySlots, [])) ∧
    (regions.length ≤ max_memslots → (∀ i, hostOk i = true) →
      (memory_init max_memslots regions hostOk).1 = Except.ok () ∧
      (memory_init max_memslots regions hostOk).2.length = regions.length ∧
      ∀ j (hj : j < regions.length)
          (hj2 : j < (memory_init max_memslots regions hostOk).2.length),
        (memory_init max_memslots regions hostOk).2.get ⟨j, hj2⟩ =
          { slot := j,
            flags := if (regions.get ⟨j, hj⟩).has_bitmap then
                       KVM_MEM_LOG_DIRTY_PAGES else 0,
            guest_phys_addr := (regions.get ⟨j, hj⟩).guest_phys_addr,
            memory_size := (regions.get ⟨j, hj⟩).memory_size }) ∧
    (∀ (shared : List VmRegion2) (hostOk2 attrOk : Nat → Bool),
      (∀ i, hostOk2 i = true) →
      ∃ calls, memory_init_memfd shared none hostOk2 attrOk =
          some (Except.ok (), calls, []) ∧
        calls.length = shared.length ∧
        ∀ j (hj : j < shared.length) (hj2 : j < calls.length),
          calls.get ⟨j, hj2⟩ =
            { kvmify (shared.get ⟨j, hj⟩) with slot := j }) := by
  refine ⟨?_, ?_, ?_⟩
  · intro hgt
    rw [memory_init, if_pos hgt]
  · intro hle hall
    have hni : ¬ regions.length > max_memslots := by omega
    rw [memory_init, if_neg hni, set_kvm_memory_regions,
      setRegionsGo_all_ok hostOk hall regions 0 []]
    simp only [List.nil_append]
    refine ⟨trivial, buildCalls_length regions 0, ?_⟩
    intro j hj hj2
    rw [buildCalls_get regions 0 j hj hj2]
    congr 1
    omega
  · intro shared hostOk2 attrOk hall
    refine ⟨memfdSlotted shared,
      memory_init_memfd_shared_ok shared hostOk2 attrOk hall,
      memfdSlotted_length shared, ?_⟩
    intro j hj hj2
    exact memfdSlotted_get shared j hj hj2

/-- C5 (counterexample to the claim as stated): the guest_memfd-variant
memory_init (vstate/vm/mod.rs) checks no slot capacity: with a host
reporting a maximum of 1 memory slot and two regions it still issues both
set_user_memory_region2 host calls and succeeds, instead of failing with
NotEnoughMemorySlots before any host call; its error type has no such
variant at all. -/
theorem memfd_no_capacity_check :
    (2 : Nat) > 1 ∧
    memory_init_memfd
      [⟨0, 4096, false, none⟩, ⟨4096, 4096, false, none⟩] none
      (fun _ => true) (fun _ => true) =
      some (Except.ok (),
        [⟨0, 0, 0, 4096, 0⟩, ⟨1, 0, 4096, 4096, 0⟩], []) :=
  ⟨by norm_num, by rfl⟩

end FcMem

namespace FcMem

theorem store_dirty_bitmap_missing (db : List (Nat × List Nat)) (ps : Nat)
    (regions : List DRegion) (r : DRegion) (hr : r ∈ regions)
    (hmiss : db.lookup r.slot = none) :
    store_dirty_bitmap db ps regions = none := by
  induction regions with
  | nil => simp at hr
  | cons x rest ih =>
    rcases List.mem_cons.mp hr with h | h
    · subst h
      simp [store_dirty_bitmap, hmiss]
    · unfold store_dirty_bitmap
      cases hx : db.lookup x.slot with
      | none => rfl
      | some w => rw [ih h]

theorem dumpRegions_missing (failAt : Nat → Bool) (db : List (Nat × List Nat))
    (ps : Nat) (regions : List DRegion) (r : DRegion) (hr : r ∈ regions)
    (hmiss : db.lookup r.slot = none) :
    ∀ st : DumpSt,
      dumpRegions failAt db ps regions st = none ∨
      ∃ e st', dumpRegions failAt db ps regions st = some (Except.error (e, st')) := by
  induction regions with
  | nil => simp at hr
  | cons x rest ih =>
    intro st
    rcases List.mem_cons.mp hr with h | h
    · subst h
      left
      simp [dumpRegions, hmiss]
    · unfold dumpRegions
      cases hx : db.lookup x.slot with
      | none => left; rfl
      | some w =>
        cases hd : dumpRegion failAt x w ps st with
        | error e =>
          right
          simp only [hd]
          exact ⟨e.1, e.2, rfl⟩
        | ok st' =>
          simp only [hd]
          exact ih h st'

/-- C10: the hypervisor dirty bitmap must contain an entry for every
region's slot: when any region's slot is missing from the map, dump_dirty
panics (whether the missing region is reached by the dump loop or by the
store_dirty_bitmap error path) instead of returning an error, and
store_dirty_bitmap panics as well. -/
theorem dump_dirty_missing_slot_panics (failAt : Nat → Bool)
    (regions : List DRegion) (db : List (Nat × List Nat)) (ps : Nat)
    (r : DRegion) (hr : r ∈ regions) (hmiss : db.lookup r.slot = none) :
    dump_dirty failAt regions db ps = DumpOutcome.panic ∧
    store_dirty_bitmap db ps regions = none := by
  have hstore := store_dirty_bitmap_missing db ps regions r hr hmiss
  refine ⟨?_, hstore⟩
  unfold dump_dirty
  rcases dumpRegions_missing failAt db ps regions r hr hmiss
      { writerOffset := 0, widx := 0, seeks := [], writes := [] } with h | ⟨e, st', h⟩
  · rw [h]
  · rw [h, hstore]

/-- Witness for dump_dirty_missing_slot_panics: one region with slot 7 and
an empty hypervisor map. -/
theorem dump_dirty_missing_slot_panics_witness :
    ((⟨7, 4096, some [false]⟩ : DRegion) ∈ [(⟨7, 4096, some [false]⟩ : DRegion)] ∧
     ([] : List (Nat × List Nat)).lookup (7 : Nat) = none) ∧
    (dump_dirty (fun _ => false) [⟨7, 4096, some [false]⟩] [] 4096 =
        DumpOutcome.panic ∧
      store_dirty_bitmap [] 4096 [⟨7, 4096, some [false]⟩] = none) :=
  ⟨⟨by decide, by decide⟩,
   dump_dirty_missing_slot_panics (fun _ => false) [⟨7, 4096, some [false]⟩]
     [] 4096 ⟨7, 4096, some [false]⟩ (by decide) (by decide)⟩


end FcMem

namespace FcMem

theorem bitGet_reset (bm : Option (List Bool)) (j : Nat) :
    bitGet (bm.map (fun l => l.map (fun _ => false))) j = false := by
  cases bm with
  | none => rfl
  | some l =>
    simp only [Option.map_some', bitGet, List.getD_eq_getElem?_getD,
      List.getElem?_map]
    cases l[j]? <;> rfl

theorem bitmapNumBits_mark (bm : Option (List Bool)) (offset len ps : Nat) :
    bitmapNumBits (bitmapMarkDirty bm offset len ps) = bitmapNumBits bm := by
  cases bm with
  | none => rfl
  | some l =>
    simp only [bitmapMarkDirty, Option.map_some', bitmapNumBits]
    split <;> simp [List.length_mapIdx]

theorem bitGet_markOne (bm : Option (List Bool)) (p ps : Nat) (hps : 0 < ps)
    (j : Nat) :
    bitGet (bitmapMarkDirty bm (p * ps) 1 ps) j =
      (bitGet bm j || (decide (j = p) && decide (j < bitmapNumBits bm))) := by
  cases bm with
  | none => simp [bitmapMarkDirty, bitGet, bitmapNumBits]
  | some l =>
    have hfirst : p * ps / ps = p := Nat.mul_div_cancel p hps
    have hlast : (p * ps + 1 - 1) / ps = p := by
      simp [Nat.mul_div_cancel p hps]
    simp only [bitmapMarkDirty, Option.map_some', if_neg (by omega : ¬ (1 : Nat) = 0),
      bitGet, bitmapNumBits, List.getD_eq_getElem?_getD, List.getElem?_mapIdx,
      hfirst, hlast]
    by_cases hj : j < l.length
    · rw [List.getElem?_eq_getElem hj]
      simp only [Option.map_some', Option.getD_some]
      by_cases hjp : j = p
      · subst hjp
        simp [hj]
      · simp [hjp]
        intro h1 h2
        omega
    · rw [List.getElem?_eq_none (by omega)]
      simp [hj]

theorem kvmPageDirty_lt (words : List Nat) (j : Nat)
    (h : kvmPageDirty words j = true) : j < 64 * words.length := by
  by_contra hn
  have hge : words.length ≤ j / 64 := by omega
  have : words.getD (j / 64) 0 = 0 := by
    simp [List.getD_eq_getElem?_getD, List.getElem?_eq_none hge]
  rw [kvmPageDirty, this] at h
  simp at h

theorem bitGet_storeFold (words : List Nat) (ps : Nat) (hps : 0 < ps)
    (L : List Nat) (bm : Option (List Bool)) (j : Nat) :
    bitGet (L.foldl (fun acc p =>
        if kvmPageDirty words p then bitmapMarkDirty acc (p * ps) 1 ps
        else acc) bm) j =
      (bitGet bm j ||
        (decide (j ∈ L) && kvmPageDirty words j &&
          decide (j < bitmapNumBits bm))) := by
  induction L generalizing bm with
  | nil => simp
  | cons p rest ih =>
    simp only [List.foldl_cons]
    by_cases hk : kvmPageDirty words p = true
    · rw [if_pos hk, ih]
      rw [bitGet_markOne bm p ps hps j, bitmapNumBits_mark]
      by_cases hjp : j = p
      · subst hjp
        simp [hk]
        try tauto
      · simp [hjp, List.mem_cons]
    · rw [if_neg (by simp [hk]), ih]
      by_cases hjp : j = p
      · subst hjp
        simp [hk]
        try tauto
      · simp [hjp, List.mem_cons]

theorem bitGet_storeRegion (words : List Nat) (bm : Option (List Bool))
    (ps : Nat) (hps : 0 < ps) (j : Nat) :
    bitGet (storeRegionBitmap words bm ps) j =
      (bitGet bm j ||
        (kvmPageDirty words j && decide (j < bitmapNumBits bm))) := by
  rw [storeRegionBitmap, bitGet_storeFold words ps hps]
  by_cases hk : kvmPageDirty words j = true
  · have := kvmPageDirty_lt words j hk
    simp [hk, List.mem_range, this]
  · simp [hk]

theorem bitmapNumBits_storeRegion (words : List Nat) (bm : Option (List Bool))
    (ps : Nat) :
    bitmapNumBits (storeRegionBitmap words bm ps) = bitmapNumBits bm := by
  rw [storeRegionBitmap]
  induction (List.range (64 * words.length)) generalizing bm with
  | nil => rfl
  | cons p rest ih =>
    simp only [List.foldl_cons]
    split
    · rw [ih, bitmapNumBits_mark]
    · rw [ih]

theorem store_dirty_bitmap_some (db : List (Nat × List Nat)) (ps : Nat)
    (regions out : List DRegion)
    (h : store_dirty_bitmap db ps regions = some out) :
    out.length = regions.length ∧
    ∀ i (hi : i < regions.length) (hi2 : i < out.length),
      ∃ w, db.lookup ((regions.get ⟨i, hi⟩).slot) = some w ∧
        out.get ⟨i, hi2⟩ =
          { regions.get ⟨i, hi⟩ with
            bitmap := storeRegionBitmap w (regions.get ⟨i, hi⟩).bitmap ps } := by
  induction regions generalizing out with
  | nil =>
    simp only [store_dirty_bitmap, Option.some_inj] at h
    subst h
    exact ⟨rfl, by intro i hi; simp at hi⟩
  | cons x rest ih =>
    unfold store_dirty_bitmap at h
    cases hx : db.lookup x.slot with
    | none => rw [hx] at h; exact absurd h (by simp)
    | some w =>
      rw [hx] at h
      cases hrest : store_dirty_bitmap db ps rest with
      | none => rw [hrest] at h; exact absurd h (by simp)
      | some rest' =>
        rw [hrest] at h
        simp only [Option.some_inj] at h
        subst h
        obtain ⟨hlen, hpt⟩ := ih rest' hrest
        refine ⟨by simp [hlen], ?_⟩
        intro i hi hi2
        cases i with
        | zero => exact ⟨w, hx, rfl⟩
        | succ i' =>
          have hi' : i' < rest.length := by simpa using hi
          have hi2' : i' < rest'.length := by simpa using hi2
          simpa using hpt i' hi' hi2'

end FcMem

namespace FcMem

theorem dirtyAt_reset (bm : Option (List Bool)) (offset ps : Nat) :
    dirtyAt (bm.map (fun l => l.map (fun _ => false))) offset ps = false := by
  rw [dirtyAt, bitGet_reset]

/-- C3: failure policy of dump_dirty. When it returns Ok, every region's
monitor-owned bitmap has been reset to all-clean (slots and lengths
untouched). When it returns an error, the error is WriteMemory, and every
region's monitor-owned bitmap is its old bitmap with every page the
hypervisor reported dirty additionally marked, already-set bits left set. -/
theorem dump_dirty_post_policy (failAt : Nat → Bool) (regions : List DRegion)
    (db : List (Nat × List Nat)) (ps : Nat) :
    (∀ seeks writes regions',
      dump_dirty failAt regions db ps = DumpOutcome.ok seeks writes regions' →
      regions'.length = regions.length ∧
      ∀ i (hi : i < regions.length) (hi2 : i < regions'.length),
        ((regions'.get ⟨i, hi2⟩).slot = (regions.get ⟨i, hi⟩).slot) ∧
        ((regions'.get ⟨i, hi2⟩).len = (regions.get ⟨i, hi⟩).len) ∧
        ∀ j, bitGet (regions'.get ⟨i, hi2⟩).bitmap j = false) ∧
    (∀ e seeks writes regions'',
      dump_dirty failAt regions db ps = DumpOutcome.error e seeks writes regions'' →
      (∃ g, e = MemoryError.WriteMemory g) ∧
      regions''.length = regions.length ∧
      ∀ i (hi : i < regions.length) (hi2 : i < regions''.length),
        0 < ps →
        ((regions''.get ⟨i, hi2⟩).slot = (regions.get ⟨i, hi⟩).slot) ∧
        ((regions''.get ⟨i, hi2⟩).len = (regions.get ⟨i, hi⟩).len) ∧
        ∃ w, db.lookup ((regions.get ⟨i, hi⟩).slot) = some w ∧
          ∀ j, bitGet (regions''.get ⟨i, hi2⟩).bitmap j =
            (bitGet (regions.get ⟨i, hi⟩).bitmap j ||
             (kvmPageDirty w j &&
              decide (j < bitmapNumBits (regions.get ⟨i, hi⟩).bitmap)))) := by
  constructor
  · intro seeks writes regions' hok
    unfold dump_dirty at hok
    cases hdr : dumpRegions failAt db ps regions
        { writerOffset := 0, widx := 0, seeks := [], writes := [] } with
    | none => rw [hdr] at hok; exact absurd hok (by simp)
    | some res =>
      rw [hdr] at hok
      cases res with
      | ok st =>
        simp only [DumpOutcome.ok.injEq] at hok
        obtain ⟨-, -, hreg⟩ := hok
        subst hreg
        refine ⟨by simp [reset_dirty], ?_⟩
        intro i hi hi2
        simp only [reset_dirty, List.get_eq_getElem, List.getElem_map]
        exact ⟨by trivial, by trivial, fun j => bitGet_reset _ j⟩
      | error est =>
        cases hst : store_dirty_bitmap db ps regions with
        | none => rw [hst] at hok; exact absurd hok (by simp)
        | some out => rw [hst] at hok; exact absurd hok (by simp)
  · intro e seeks writes regions'' herr
    unfold dump_dirty at herr
    cases hdr : dumpRegions failAt db ps regions
        { writerOffset := 0, widx := 0, seeks := [], writes := [] } with
    | none => rw [hdr] at herr; exact absurd herr (by simp)
    | some res =>
      rw [hdr] at herr
      cases res with
      | ok st => exact absurd herr (by simp)
      | error est =>
        cases hst : store_dirty_bitmap db ps regions with
        | none => rw [hst] at herr; exact absurd herr (by simp)
        | some out =>
          rw [hst] at herr
          simp only [DumpOutcome.error.injEq] at herr
          obtain ⟨he, -, -, hreg⟩ := herr
          subst hreg
          obtain ⟨hlen, hpt⟩ := store_dirty_bitmap_some db ps regions out hst
          refine ⟨⟨est.1, he.symm⟩, hlen, ?_⟩
          intro i hi hi2 hps
          obtain ⟨w, hw, hout⟩ := hpt i hi hi2
          rw [hout]
          exact ⟨rfl, rfl, w, hw, fun j => bitGet_storeRegion w _ ps hps j⟩

end FcMem

namespace FcMem

theorem scanPages_inv (d : Nat → Bool) (ps : Nat) (hps : 0 < ps)
    (count : Nat) :
    ∀ (start ws bs : Nat) (log : List (Nat × Nat)) (seeks : List Nat),
      ScanInv d ps start ws bs log seeks →
      ScanInv d ps (start + count)
        (scanPages d ps (List.range' start count) ws bs log seeks).1
        (scanPages d ps (List.range' start count) ws bs log seeks).2.1
        (scanPages d ps (List.range' start count) ws bs log seeks).2.2.1
        (scanPages d ps (List.range' start count) ws bs log seeks).2.2.2 := by
  induction count with
  | zero =>
    intro start ws bs log seeks hinv
    simpa [scanPages] using hinv
  | succ n ih =>
    intro start ws bs log seeks hinv
    obtain ⟨h0, hopen, hclosed, hcov, hseeks⟩ := hinv
    rw [List.range'_succ]
    have harith : start + (n + 1) = (start + 1) + n := by omega
    rw [harith]
    by_cases hd : d start = true
    · by_cases hws : ws = 0
      · -- open a new batch at page start
        subst hws
        rw [show scanPages d ps (start :: List.range' (start + 1) n) 0 bs log seeks =
            scanPages d ps (List.range' (start + 1) n) ps (start * ps) log
              (seeks ++ [start * ps]) by
          simp [scanPages, hd]]
        apply ih
        refine ⟨?_, ?_, ?_, ?_, ?_⟩
        · intro h
          exact absurd h (by omega)
        · intro _
          refine ⟨start, rfl, ?_, by omega, ?_, ?_⟩
          · have : start + 1 - start = 1 := by omega
            rw [this, Nat.one_mul]
          · intro q hq1 hq2
            have : q = start := by omega
            subst this
            exact hd
          · simpa using h0 rfl
        · intro b hb
          obtain ⟨s, k, hbv, hk, hsk, hrun, hleft, hright⟩ := hclosed b hb
          exact ⟨s, k, hbv, hk, by omega, hrun, hleft, hright⟩
        · intro q hq
          by_cases hq' : q < start
          · rw [hcov q hq']
            constructor
            · rintro (h | h)
              · exact Or.inl h
              · exact absurd h.1 (by omega)
            · rintro (h | ⟨-, hle, -⟩)
              · exact Or.inl h
              · exfalso
                have : start ≤ q := (mul_le_mul_right hps).mp hle
                omega
          · have hq'' : q = start := by omega
            subst hq''
            constructor
            · intro _
              refine Or.inr ⟨hps, le_refl _, ?_⟩
              have := (Nat.mul_lt_mul_right (b := q) (c := q + 1) hps).mpr (by omega)
              omega
            · intro _
              exact hd
        · simp only [finalLog] at hseeks ⊢
          rw [if_neg (by omega : ¬ (0:Nat) < 0)] at hseeks
          rw [if_pos hps]
          simp only [List.append_nil] at hseeks
          simp [hseeks]
      · -- extend the open batch
        have hws' : 0 < ws := by omega
        rw [show scanPages d ps (start :: List.range' (start + 1) n) ws bs log seeks =
            scanPages d ps (List.range' (start + 1) n) (ws + ps) bs log seeks by
          simp [scanPages, hd, hws]]
        apply ih
        obtain ⟨s, hbs, hwsv, hslt, hrun, hleft⟩ := hopen hws'
        refine ⟨?_, ?_, ?_, ?_, ?_⟩
        · intro h
          exact absurd h (by omega)
        · intro _
          refine ⟨s, hbs, ?_, by omega, ?_, hleft⟩
          · rw [hwsv]
            have h1 : start + 1 - s = (start - s) + 1 := by omega
            rw [h1, Nat.succ_mul]
          · intro q hq1 hq2
            by_cases hq' : q < start
            · exact hrun q hq1 hq'
            · have : q = start := by omega
              subst this
              exact hd
        · intro b hb
          obtain ⟨s', k, hbv, hk, hsk, hrun', hleft', hright'⟩ := hclosed b hb
          exact ⟨s', k, hbv, hk, by omega, hrun', hleft', hright'⟩
        · intro q hq
          have hbsws : bs + ws = start * ps := by
            rw [hbs, hwsv, ← Nat.add_mul]
            congr 1
            omega
          by_cases hq' : q < start
          · rw [hcov q hq']
            constructor
            · rintro (h | ⟨h1, h2, h3⟩)
              · exact Or.inl h
              · exact Or.inr ⟨by omega, h2, by omega⟩
            · rintro (h | ⟨h1, h2, h3⟩)
              · exact Or.inl h
              · refine Or.inr ⟨hws', h2, ?_⟩
                rw [hbsws]
                exact (Nat.mul_lt_mul_right hps).mpr hq'
          · have hq'' : q = start := by omega
            subst hq''
            constructor
            · intro _
              refine Or.inr ⟨by omega, ?_, ?_⟩
              · rw [hbs]
                exact (mul_le_mul_right hps).mpr (by omega)
              · omega
            · intro _
              exact hd
        · simp only [finalLog, if_pos hws', if_pos (by omega : 0 < ws + ps)] at hseeks ⊢
          simp only [List.map_append] at hseeks ⊢
          simpa using hseeks
    · have hdq : d start = false := by simpa using hd
      by_cases hws : 0 < ws
      · -- close the open batch
        rw [show scanPages d ps (start :: List.range' (start + 1) n) ws bs log seeks =
            scanPages d ps (List.range' (start + 1) n) 0 bs (log ++ [(bs, ws)]) seeks by
          simp [scanPages, hdq, Nat.pos_iff_ne_zero.mp hws, hws]]
        apply ih
        obtain ⟨s, hbs, hwsv, hslt, hrun, hleft⟩ := hopen hws
        have hbsws : bs + ws = start * ps := by
          rw [hbs, hwsv, ← Nat.add_mul]
          congr 1
          omega
        refine ⟨?_, ?_, ?_, ?_, ?_⟩
        · intro _
          right
          simpa using hdq
        · intro h
          exact absurd h (by omega)
        · intro b hb
          rcases List.mem_append.mp hb with hb' | hb'
          · obtain ⟨s', k, hbv, hk, hsk, hrun', hleft', hright'⟩ := hclosed b hb'
            exact ⟨s', k, hbv, hk, by omega, hrun', hleft', hright'⟩
          · have hbv : b = (bs, ws) := by simpa using hb'
            subst hbv
            refine ⟨s, start - s, by rw [hbs, hwsv], by omega, by omega, ?_, hleft, ?_⟩
            · intro q hq1 hq2
              exact hrun q hq1 (by omega)
            · have : s + (start - s) = start := by omega
              rw [this]
              exact hdq
        · intro q hq
          by_cases hq' : q < start
          · rw [hcov q hq']
            constructor
            · rintro (⟨b, hb, hcb⟩ | ⟨-, h2, h3⟩)
              · exact Or.inl ⟨b, List.mem_append.mpr (Or.inl hb), hcb⟩
              · refine Or.inl ⟨(bs, ws), List.mem_append.mpr (Or.inr (by simp)), h2, ?_⟩
                show (q + 1) * ps ≤ bs + ws
                rw [hbsws]
                exact Nat.mul_le_mul_right ps (by omega)
            · rintro (⟨b, hb, hcb⟩ | ⟨h1, -, -⟩)
              · rcases List.mem_append.mp hb with hb' | hb'
                · exact Or.inl ⟨b, hb', hcb⟩
                · have hbv : b = (bs, ws) := by simpa using hb'
                  subst hbv
                  refine Or.inr ⟨hws, hcb.1, ?_⟩
                  have h2 := hcb.2
                  have := (Nat.mul_lt_mul_right (b := q) (c := q + 1) hps).mpr (by omega)
                  omega
              · exact absurd h1 (by omega)
          · have hq'' : q = start := by omega
            subst hq''
            rw [hdq]
            constructor
            · intro h
              exact absurd h (by simp)
            · rintro (⟨b, hb, hcb⟩ | ⟨h1, -, -⟩)
              · exfalso
                rcases List.mem_append.mp hb with hb' | hb'
                · obtain ⟨s', k, hbv, hk, hsk, -, -, -⟩ := hclosed b hb'
                  rw [hbv] at hcb
                  have h2 := hcb.2
                  simp only at h2
                  rw [← Nat.add_mul] at h2
                  have : q + 1 ≤ s' + k := (mul_le_mul_right hps).mp h2
                  omega
                · have hbv : b = (bs, ws) := by simpa using hb'
                  subst hbv
                  have h2 := hcb.2
                  rw [hbsws] at h2
                  have : q + 1 ≤ q := (mul_le_mul_right hps).mp h2
                  omega
              · exact absurd h1 (by omega)
        · simp only [finalLog, if_pos hws, if_neg (by omega : ¬ (0:Nat) < 0)] at hseeks ⊢
          simpa using hseeks
      · -- clean page, no open batch
        have hws0 : ws = 0 := by omega
        subst hws0
        rw [show scanPages d ps (start :: List.range' (start + 1) n) 0 bs log seeks =
            scanPages d ps (List.range' (start + 1) n) 0 bs log seeks by
          simp [scanPages, hdq]]
        apply ih
        refine ⟨?_, ?_, ?_, ?_, hseeks⟩
        · intro _
          right
          simpa using hdq
        · intro h
          exact absurd h (by omega)
        · intro b hb
          obtain ⟨s', k, hbv, hk, hsk, hrun', hleft', hright'⟩ := hclosed b hb
          exact ⟨s', k, hbv, hk, by omega, hrun', hleft', hright'⟩
        · intro q hq
          by_cases hq' : q < start
          · rw [hcov q hq']
          · have hq'' : q = start := by omega
            subst hq''
            rw [hdq]
            constructor
            · intro h
              exact absurd h (by simp)
            · rintro (⟨b, hb, hcb⟩ | ⟨h1, -, -⟩)
              · exfalso
                obtain ⟨s', k, hbv, hk, hsk, -, -, -⟩ := hclosed b hb
                rw [hbv] at hcb
                have h2 := hcb.2
                simp only at h2
                rw [← Nat.add_mul] at h2
                have : q + 1 ≤ s' + k := (mul_le_mul_right hps).mp h2
                omega
              · exact absurd h1 (by omega)

end FcMem

namespace FcMem

theorem scanPages_shift (d : Nat → Bool) (ps : Nat) (pages : List Nat) :
    ∀ (ws bs : Nat) (log : List (Nat × Nat)) (seeks : List Nat),
      scanPages d ps pages ws bs log seeks =
        ((scanPages d ps pages ws bs [] []).1,
         (scanPages d ps pages ws bs [] []).2.1,
         log ++ (scanPages d ps pages ws bs [] []).2.2.1,
         seeks ++ (scanPages d ps pages ws bs [] []).2.2.2) := by
  induction pages with
  | nil =>
    intro ws bs log seeks
    simp [scanPages]
  | cons p rest ih =>
    intro ws bs log seeks
    by_cases hd : d p = true
    · by_cases hws : ws = 0
      · subst hws
        have hstep : ∀ (l : List (Nat × Nat)) (sk : List Nat),
            scanPages d ps (p :: rest) 0 bs l sk =
              scanPages d ps rest ps (p * ps) l (sk ++ [p * ps]) := by
          intro l sk
          simp [scanPages, hd]
        rw [hstep log seeks, hstep [] []]
        rw [ih ps (p * ps) log (seeks ++ [p * ps]),
            ih ps (p * ps) [] ([] ++ [p * ps])]
        simp
      · have hstep : ∀ (l : List (Nat × Nat)) (sk : List Nat),
            scanPages d ps (p :: rest) ws bs l sk =
              scanPages d ps rest (ws + ps) bs l sk := by
          intro l sk
          simp [scanPages, hd, hws]
        rw [hstep log seeks, hstep [] []]
        rw [ih (ws + ps) bs log seeks]
    · have hdq : d p = false := by simpa using hd
      by_cases hws : 0 < ws
      · have hstep : ∀ (l : List (Nat × Nat)) (sk : List Nat),
            scanPages d ps (p :: rest) ws bs l sk =
              scanPages d ps rest 0 bs (l ++ [(bs, ws)]) sk := by
          intro l sk
          simp [scanPages, hdq, hws, Nat.pos_iff_ne_zero.mp hws]
        rw [hstep log seeks, hstep [] []]
        rw [ih 0 bs (log ++ [(bs, ws)]) seeks, ih 0 bs ([] ++ [(bs, ws)]) []]
        simp
      · have hws0 : ws = 0 := by omega
        subst hws0
        have hstep : ∀ (l : List (Nat × Nat)) (sk : List Nat),
            scanPages d ps (p :: rest) 0 bs l sk =
              scanPages d ps rest 0 bs l sk := by
          intro l sk
          simp [scanPages, hdq]
        rw [hstep log seeks, hstep [] []]
        rw [ih 0 bs log seeks]

end FcMem

namespace FcMem

theorem dumpPages_eq_scan (failAt : Nat → Bool) (words : List Nat)
    (bm : Option (List Bool)) (regionLen ps : Nat)
    (hfail : ∀ i, failAt i = false) (pages : List Nat) :
    ∀ (ws bs : Nat) (st : DumpSt),
      (∀ b ∈ (scanPages (jointDirty words bm ps) ps pages ws bs [] []).2.2.1,
        b.1 + b.2 ≤ regionLen) →
      dumpPages failAt words bm regionLen ps pages ws bs st =
        Except.ok
          ((scanPages (jointDirty words bm ps) ps pages ws bs [] []).1,
           (scanPages (jointDirty words bm ps) ps pages ws bs [] []).2.1,
           { writerOffset := st.writerOffset,
             widx := st.widx +
               (scanPages (jointDirty words bm ps) ps pages ws bs [] []).2.2.1.length,
             seeks := st.seeks ++
               ((scanPages (jointDirty words bm ps) ps pages ws bs [] []).2.2.2).map
                 (fun o => st.writerOffset + o),
             writes := st.writes ++
               ((scanPages (jointDirty words bm ps) ps pages ws bs [] []).2.2.1).map
                 (fun b => (st.writerOffset + b.1, b.2)) }) := by
  induction pages with
  | nil =>
    intro ws bs st hb
    simp [dumpPages, scanPages]
  | cons p rest ih =>
    intro ws bs st hb
    by_cases hd : jointDirty words bm ps p = true
    · have hd' : (kvmPageDirty words p || dirtyAt bm (p * ps) ps) = true := hd
      by_cases hws : ws = 0
      · subst hws
        have hstepd : dumpPages failAt words bm regionLen ps (p :: rest) 0 bs st =
            dumpPages failAt words bm regionLen ps rest ps (p * ps)
              { st with seeks := st.seeks ++ [st.writerOffset + p * ps] } := by
          simp [dumpPages, hd']
        have hsteps : ∀ (l : List (Nat × Nat)) (sk : List Nat),
            scanPages (jointDirty words bm ps) ps (p :: rest) 0 bs l sk =
              scanPages (jointDirty words bm ps) ps rest ps (p * ps) l
                (sk ++ [p * ps]) := by
          intro l sk
          simp [scanPages, hd]
        rw [hstepd, hsteps [] []]
        rw [scanPages_shift (jointDirty words bm ps) ps rest ps (p * ps) []
          ([] ++ [p * ps])]
        have hb' : ∀ b ∈ (scanPages (jointDirty words bm ps) ps rest ps (p * ps)
            [] []).2.2.1, b.1 + b.2 ≤ regionLen := by
          intro b hbmem
          apply hb
          rw [hsteps [] [], scanPages_shift (jointDirty words bm ps) ps rest ps
            (p * ps) [] ([] ++ [p * ps])]
          simpa using hbmem
        rw [ih ps (p * ps) _ hb']
        simp
      · have hstepd : dumpPages failAt words bm regionLen ps (p :: rest) ws bs st =
            dumpPages failAt words bm regionLen ps rest (ws + ps) bs st := by
          simp [dumpPages, hd', hws]
        have hsteps : ∀ (l : List (Nat × Nat)) (sk : List Nat),
            scanPages (jointDirty words bm ps) ps (p :: rest) ws bs l sk =
              scanPages (jointDirty words bm ps) ps rest (ws + ps) bs l sk := by
          intro l sk
          simp [scanPages, hd, hws]
        rw [hstepd, hsteps [] []]
        have hb' : ∀ b ∈ (scanPages (jointDirty words bm ps) ps rest (ws + ps) bs
            [] []).2.2.1, b.1 + b.2 ≤ regionLen := by
          intro b hbmem
          apply hb
          rw [hsteps [] []]
          exact hbmem
        rw [ih (ws + ps) bs st hb']
    · have hdq : jointDirty words bm ps p = false := by simpa using hd
      have hd' : (kvmPageDirty words p || dirtyAt bm (p * ps) ps) = false := hdq
      by_cases hws : 0 < ws
      · have hsteps : ∀ (l : List (Nat × Nat)) (sk : List Nat),
            scanPages (jointDirty words bm ps) ps (p :: rest) ws bs l sk =
              scanPages (jointDirty words bm ps) ps rest 0 bs (l ++ [(bs, ws)]) sk := by
          intro l sk
          simp [scanPages, hdq, hws, Nat.pos_iff_ne_zero.mp hws]
        have hbnd : bs + ws ≤ regionLen := by
          have : (bs, ws) ∈ (scanPages (jointDirty words bm ps) ps (p :: rest)
              ws bs [] []).2.2.1 := by
            rw [hsteps [] [], scanPages_shift (jointDirty words bm ps) ps rest 0 bs
              ([] ++ [(bs, ws)]) []]
            simp
          exact hb (bs, ws) this
        have hwrite : batchWrite failAt regionLen bs ws st =
            Except.ok { st with
              widx := st.widx + 1,
              writes := st.writes ++ [(st.writerOffset + bs, ws)] } := by
          rw [batchWrite, if_pos hbnd, hfail st.widx]
          simp
        have hstepd : dumpPages failAt words bm regionLen ps (p :: rest) ws bs st =
            dumpPages failAt words bm regionLen ps rest 0 bs
              { st with
                widx := st.widx + 1,
                writes := st.writes ++ [(st.writerOffset + bs, ws)] } := by
          simp only [dumpPages, hd', Bool.false_eq_true, if_false, if_pos hws, hwrite]
        rw [hstepd, hsteps [] []]
        rw [scanPages_shift (jointDirty words bm ps) ps rest 0 bs ([] ++ [(bs, ws)]) []]
        have hb' : ∀ b ∈ (scanPages (jointDirty words bm ps) ps rest 0 bs
            [] []).2.2.1, b.1 + b.2 ≤ regionLen := by
          intro b hbmem
          apply hb
          rw [hsteps [] [], scanPages_shift (jointDirty words bm ps) ps rest 0 bs
            ([] ++ [(bs, ws)]) []]
          simp
          right
          exact hbmem
        rw [ih 0 bs _ hb']
        simp
        omega
      · have hws0 : ws = 0 := by omega
        subst hws0
        have hstepd : dumpPages failAt words bm regionLen ps (p :: rest) 0 bs st =
            dumpPages failAt words bm regionLen ps rest 0 bs st := by
          simp [dumpPages, hd']
        have hsteps : ∀ (l : List (Nat × Nat)) (sk : List Nat),
            scanPages (jointDirty words bm ps) ps (p :: rest) 0 bs l sk =
              scanPages (jointDirty words bm ps) ps rest 0 bs l sk := by
          intro l sk
          simp [scanPages, hdq]
        rw [hstepd, hsteps [] []]
        have hb' : ∀ b ∈ (scanPages (jointDirty words bm ps) ps rest 0 bs
            [] []).2.2.1, b.1 + b.2 ≤ regionLen := by
          intro b hbmem
          apply hb
          rw [hsteps [] []]
          exact hbmem
        rw [ih 0 bs st hb']

end FcMem

namespace FcMem

theorem scanInv_regionBatches (d : Nat → Bool) (ps n woff : Nat) (hps : 0 < ps)
    (ws bs : Nat) (log : List (Nat × Nat)) (seeks : List Nat)
    (hinv : ScanInv d ps n ws bs log seeks) :
    RegionBatches d ps n woff
      ((finalLog ws bs log).map (fun b => (woff + b.1, b.2))) := by
  obtain ⟨h0, hopen, hclosed, hcov, hseeks⟩ := hinv
  constructor
  · intro b hb
    obtain ⟨b0, hb0, hb0v⟩ := List.mem_map.mp hb
    rcases (by simpa [finalLog] using hb0 :
        b0 ∈ log ∨ 0 < ws ∧ b0 = (bs, ws)) with hmem | ⟨hws, hb0e⟩
    · obtain ⟨s, k, hbv, hk, hsk, hrun, hleft, hright⟩ := hclosed b0 hmem
      refine ⟨s, k, ?_, hk, by omega, hrun, hleft, Or.inr hright⟩
      rw [← hb0v, hbv]
    · subst hb0e
      obtain ⟨s, hbs, hwsv, hslt, hrun, hleft⟩ := hopen hws
      refine ⟨s, n - s, ?_, by omega, by omega, ?_, hleft, Or.inl (by omega)⟩
      · rw [← hb0v, hbs, hwsv]
      · intro q hq1 hq2
        exact hrun q hq1 (by omega)
  · intro p hp
    rw [hcov p hp]
    constructor
    · rintro (⟨b, hb, hcb⟩ | ⟨hws, h2, h3⟩)
      · refine ⟨(woff + b.1, b.2), List.mem_map.mpr ⟨b, by simp [finalLog, hb], rfl⟩,
          by omega, by omega⟩
      · obtain ⟨s, hbs, hwsv, hslt, hrun, hleft⟩ := hopen hws
        refine ⟨(woff + bs, ws), List.mem_map.mpr ⟨(bs, ws),
          by simp [finalLog, hws], rfl⟩, by omega, ?_⟩
        have hend : bs + ws = n * ps := by
          rw [hbs, hwsv, ← Nat.add_mul]
          congr 1
          omega
        have : (p + 1) * ps ≤ n * ps := Nat.mul_le_mul_right ps (by omega)
        omega
    · rintro ⟨b, hb, hcb1, hcb2⟩
      obtain ⟨b0, hb0, hb0v⟩ := List.mem_map.mp hb
      rcases (by simpa [finalLog] using hb0 :
          b0 ∈ log ∨ 0 < ws ∧ b0 = (bs, ws)) with hmem | ⟨hws, hb0e⟩
      · left
        refine ⟨b0, hmem, ?_, ?_⟩
        · rw [← hb0v] at hcb1
          simp only at hcb1
          omega
        · rw [← hb0v] at hcb2
          simp only at hcb2
          omega
      · subst hb0e
        right
        rw [← hb0v] at hcb1 hcb2
        simp only at hcb1 hcb2
        refine ⟨hws, by omega, ?_⟩
        have : p * ps < (p + 1) * ps := by
          have := (Nat.mul_lt_mul_right (b := p) (c := p + 1) hps).mpr (by omega)
          omega
        omega

theorem scanInv_zero (d : Nat → Bool) (ps : Nat) :
    ScanInv d ps 0 0 0 [] [] := by
  refine ⟨?_, ?_, ?_, ?_, ?_⟩
  · intro _
    exact Or.inl rfl
  · intro h
    exact absurd h (by omega)
  · intro b hb
    simp at hb
  · intro q hq
    exact absurd hq (by omega)
  · rfl

end FcMem

namespace FcMem

theorem dumpRegion_ok (failAt : Nat → Bool) (r : DRegion) (words : List Nat)
    (ps : Nat) (st : DumpSt) (hps : 0 < ps) (hfail : ∀ i, failAt i = false)
    (hrange : ∀ p, p < 64 * words.length →
      jointDirty words r.bitmap ps p = true → (p + 1) * ps ≤ r.len) :
    ∃ L : List (Nat × Nat),
      dumpRegion failAt r words ps st = Except.ok
        { writerOffset := st.writerOffset + r.len,
          widx := st.widx + L.length,
          seeks := st.seeks ++ L.map Prod.fst,
          writes := st.writes ++ L } ∧
      RegionBatches (jointDirty words r.bitmap ps) ps (64 * words.length)
        st.writerOffset L := by
  have hinv := scanPages_inv (jointDirty words r.bitmap ps) ps hps
    (64 * words.length) 0 0 0 [] []
    (scanInv_zero (jointDirty words r.bitmap ps) ps)
  rw [Nat.zero_add] at hinv
  rw [← List.range_eq_range'] at hinv
  obtain ⟨h0, hopen, hclosed, hcov, hseeks⟩ := hinv
  have hboundClosed : ∀ b ∈ (scanPages (jointDirty words r.bitmap ps) ps
      (List.range (64 * words.length)) 0 0 [] []).2.2.1,
      b.1 + b.2 ≤ r.len := by
    intro b hb
    obtain ⟨s, k, hbv, hk, hsk, hrun, -, -⟩ := hclosed b hb
    have hlast : jointDirty words r.bitmap ps (s + k - 1) = true :=
      hrun (s + k - 1) (by omega) (by omega)
    have h1 := hrange (s + k - 1) (by omega) hlast
    have h2 : s + k - 1 + 1 = s + k := by omega
    rw [h2] at h1
    rw [hbv]
    simp only
    rw [← Nat.add_mul]
    exact h1
  have hbridge := dumpPages_eq_scan failAt words r.bitmap r.len ps hfail
    (List.range (64 * words.length)) 0 0 st hboundClosed
  refine ⟨(finalLog
      (scanPages (jointDirty words r.bitmap ps) ps
        (List.range (64 * words.length)) 0 0 [] []).1
      (scanPages (jointDirty words r.bitmap ps) ps
        (List.range (64 * words.length)) 0 0 [] []).2.1
      (scanPages (jointDirty words r.bitmap ps) ps
        (List.range (64 * words.length)) 0 0 [] []).2.2.1).map
      (fun b => (st.writerOffset + b.1, b.2)), ?_, ?_⟩
  · rw [dumpRegion, hbridge]
    by_cases hws : 0 < (scanPages (jointDirty words r.bitmap ps) ps
        (List.range (64 * words.length)) 0 0 [] []).1
    · -- a final open batch must be flushed
      obtain ⟨s, hbs, hwsv, hslt, hrun, -⟩ := hopen hws
      have hlastd : jointDirty words r.bitmap ps (64 * words.length - 1) = true :=
        hrun (64 * words.length - 1) (by omega) (by omega)
      have hnps := hrange (64 * words.length - 1) (by omega) hlastd
      have hend : (scanPages (jointDirty words r.bitmap ps) ps
          (List.range (64 * words.length)) 0 0 [] []).2.1 +
          (scanPages (jointDirty words r.bitmap ps) ps
            (List.range (64 * words.length)) 0 0 [] []).1 =
          (64 * words.length) * ps := by
        rw [hbs, hwsv, ← Nat.add_mul]
        congr 1
        omega
      have hflushbound : (scanPages (jointDirty words r.bitmap ps) ps
          (List.range (64 * words.length)) 0 0 [] []).2.1 +
          (scanPages (jointDirty words r.bitmap ps) ps
            (List.range (64 * words.length)) 0 0 [] []).1 ≤ r.len := by
        have h2 : 64 * words.length - 1 + 1 = 64 * words.length := by omega
        rw [h2] at hnps
        rw [hend]
        exact hnps
      simp only [if_pos hws]
      rw [batchWrite, if_pos hflushbound]
      simp only [hfail, Bool.false_eq_true, if_false]
      simp only [Except.ok.injEq]
      rw [hseeks]
      simp only [finalLog, if_pos hws]
      simp [List.map_append, List.map_map, Function.comp]
      omega
    · have hws0 : (scanPages (jointDirty words r.bitmap ps) ps
          (List.range (64 * words.length)) 0 0 [] []).1 = 0 := by omega
      simp only [if_neg hws]
      simp only [Except.ok.injEq]
      rw [hseeks]
      simp only [finalLog, hws0, if_neg (by omega : ¬ (0:Nat) < 0)]
      simp [List.map_append, List.map_map, Function.comp]
  · have := scanInv_regionBatches (jointDirty words r.bitmap ps) ps
      (64 * words.length) st.writerOffset hps
      (scanPages (jointDirty words r.bitmap ps) ps
        (List.range (64 * words.length)) 0 0 [] []).1
      (scanPages (jointDirty words r.bitmap ps) ps
        (List.range (64 * words.length)) 0 0 [] []).2.1
      (scanPages (jointDirty words r.bitmap ps) ps
        (List.range (64 * words.length)) 0 0 [] []).2.2.1
      (scanPages (jointDirty words r.bitmap ps) ps
        (List.range (64 * words.length)) 0 0 [] []).2.2.2
      ⟨h0, hopen, hclosed, hcov, hseeks⟩
    exact this

end FcMem

namespace FcMem

theorem offsetBefore_cons (r : DRegion) (rest : List DRegion) (i : Nat) :
    offsetBefore (r :: rest) (i + 1) = r.len + offsetBefore rest i := by
  simp [offsetBefore, List.take_succ_cons]

theorem dumpRegions_ok (failAt : Nat → Bool) (db : List (Nat × List Nat))
    (ps : Nat) (hps : 0 < ps) (hfail : ∀ i, failAt i = false) :
    ∀ (regions : List DRegion) (st : DumpSt),
      (∀ i (hi : i < regions.length), ∃ w,
        db.lookup ((regions.get ⟨i, hi⟩).slot) = some w ∧
        (∀ p, p < 64 * w.length →
          jointDirty w ((regions.get ⟨i, hi⟩).bitmap) ps p = true →
          (p + 1) * ps ≤ (regions.get ⟨i, hi⟩).len)) →
      ∃ bl : List (List (Nat × Nat)),
        bl.length = regions.length ∧
        dumpRegions failAt db ps regions st = some (Except.ok
          { writerOffset := st.writerOffset + ((regions.map DRegion.len).sum),
            widx := st.widx + bl.flatten.length,
            seeks := st.seeks ++ bl.flatten.map Prod.fst,
            writes := st.writes ++ bl.flatten }) ∧
        ∀ i (hi : i < regions.length) (hi2 : i < bl.length) (w : List Nat),
          db.lookup ((regions.get ⟨i, hi⟩).slot) = some w →
          RegionBatches (jointDirty w ((regions.get ⟨i, hi⟩).bitmap) ps) ps
            (64 * w.length) (st.writerOffset + offsetBefore regions i)
            (bl.get ⟨i, hi2⟩) := by
  intro regions
  induction regions with
  | nil =>
    intro st hsl
    refine ⟨[], rfl, by simp [dumpRegions], ?_⟩
    intro i hi
    simp at hi
  | cons r rest ih =>
    intro st hsl
    obtain ⟨w, hw0, hrange0⟩ := hsl 0 (by simp)
    have hw : List.lookup r.slot db = some w := hw0
    have hrange : ∀ p, p < 64 * w.length →
        jointDirty w r.bitmap ps p = true → (p + 1) * ps ≤ r.len := hrange0
    obtain ⟨L, hdr, hrb⟩ := dumpRegion_ok failAt r w ps st hps hfail hrange
    have hsl' : ∀ i (hi : i < rest.length), ∃ w2,
        db.lookup ((rest.get ⟨i, hi⟩).slot) = some w2 ∧
        (∀ p, p < 64 * w2.length →
          jointDirty w2 ((rest.get ⟨i, hi⟩).bitmap) ps p = true →
          (p + 1) * ps ≤ (rest.get ⟨i, hi⟩).len) := by
      intro i hi
      have := hsl (i + 1) (by simpa using Nat.succ_lt_succ hi)
      simpa using this
    obtain ⟨bl, hbl_len, hdrs, hbl⟩ := ih
      { writerOffset := st.writerOffset + r.len,
        widx := st.widx + L.length,
        seeks := st.seeks ++ L.map Prod.fst,
        writes := st.writes ++ L } hsl'
    refine ⟨L :: bl, by simp [hbl_len], ?_, ?_⟩
    · have hstep : dumpRegions failAt db ps (r :: rest) st =
          dumpRegions failAt db ps rest
            { writerOffset := st.writerOffset + r.len,
              widx := st.widx + L.length,
              seeks := st.seeks ++ L.map Prod.fst,
              writes := st.writes ++ L } := by
        simp only [dumpRegions, hw, hdr]
      rw [hstep, hdrs]
      simp only [Option.some_inj, Except.ok.injEq]
      simp [List.flatten_cons, List.map_append]
      omega
    · intro i hi hi2 w2 hw2
      cases i with
      | zero =>
        have hw2' : List.lookup r.slot db = some w2 := hw2
        have hweq : w2 = w := by
          rw [hw] at hw2'
          exact (Option.some_inj.mp hw2').symm
        subst hweq
        have h0 : st.writerOffset + offsetBefore (r :: rest) 0 = st.writerOffset := by
          simp [offsetBefore]
        rw [h0]
        exact hrb
      | succ i' =>
        have hi' : i' < rest.length := by simpa using hi
        have hi2' : i' < bl.length := by simpa using hi2
        have hw2' : List.lookup (rest.get ⟨i', hi'⟩).slot db = some w2 := hw2
        have hres := hbl i' hi' hi2' w2 hw2'
        show RegionBatches (jointDirty w2 ((rest.get ⟨i', hi'⟩)).bitmap ps) ps
          (64 * w2.length) (st.writerOffset + offsetBefore (r :: rest) (i' + 1))
          (bl.get ⟨i', hi2'⟩)
        rw [offsetBefore_cons, ← Nat.add_assoc]
        exact hres

end FcMem

namespace FcMem

/-- C2: with dirty tracking, no write failures and a well-formed hypervisor
bitmap, dump_dirty succeeds and its writes are, region by region, exactly
the maximal runs of pages that either the hypervisor bitmap or the
monitor-owned bitmap marks dirty: each batch starts at writer_offset +
first_dirty_page_offset, where writer_offset is the sum of the lengths of
the preceding regions, a single seek per batch targets exactly that
position, and a page of a region is covered by some written batch iff it
is dirty in either bitmap. -/
theorem dump_dirty_batches (failAt : Nat → Bool) (regions : List DRegion)
    (db : List (Nat × List Nat)) (ps : Nat)
    (hps : 0 < ps)
    (hfail : ∀ i, failAt i = false)
    (hslots : ∀ i (hi : i < regions.length), ∃ w,
      db.lookup ((regions.get ⟨i, hi⟩).slot) = some w ∧
      (regions.get ⟨i, hi⟩).len ≤ 64 * w.length * ps ∧
      (∀ p, p < 64 * w.length →
        jointDirty w ((regions.get ⟨i, hi⟩).bitmap) ps p = true →
        (p + 1) * ps ≤ (regions.get ⟨i, hi⟩).len)) :
    ∃ bl : List (List (Nat × Nat)),
      bl.length = regions.length ∧
      dump_dirty failAt regions db ps =
        DumpOutcome.ok (bl.flatten.map Prod.fst) bl.flatten
          (reset_dirty regions) ∧
      ∀ i (hi : i < regions.length) (hi2 : i < bl.length) (w : List Nat),
        db.lookup ((regions.get ⟨i, hi⟩).slot) = some w →
        RegionBatches (jointDirty w ((regions.get ⟨i, hi⟩).bitmap) ps) ps
          (64 * w.length) (offsetBefore regions i) (bl.get ⟨i, hi2⟩) ∧
        ∀ p, (p + 1) * ps ≤ (regions.get ⟨i, hi⟩).len →
          (jointDirty w ((regions.get ⟨i, hi⟩).bitmap) ps p = true ↔
            ∃ b ∈ bl.get ⟨i, hi2⟩,
              b.1 ≤ offsetBefore regions i + p * ps ∧
              offsetBefore regions i + (p + 1) * ps ≤ b.1 + b.2) := by
  have hsl' : ∀ i (hi : i < regions.length), ∃ w,
      db.lookup ((regions.get ⟨i, hi⟩).slot) = some w ∧
      (∀ p, p < 64 * w.length →
        jointDirty w ((regions.get ⟨i, hi⟩).bitmap) ps p = true →
        (p + 1) * ps ≤ (regions.get ⟨i, hi⟩).len) := by
    intro i hi
    obtain ⟨w, hw, -, hr⟩ := hslots i hi
    exact ⟨w, hw, hr⟩
  obtain ⟨bl, hlen, hdrs, hbl⟩ := dumpRegions_ok failAt db ps hps hfail regions
    { writerOffset := 0, widx := 0, seeks := [], writes := [] } hsl'
  refine ⟨bl, hlen, ?_, ?_⟩
  · rw [dump_dirty, hdrs]
    simp
  · intro i hi hi2 w hw
    have hRB := hbl i hi hi2 w hw
    simp only [Nat.zero_add] at hRB
    refine ⟨hRB, ?_⟩
    intro p hple
    obtain ⟨w', hw', hlenb, -⟩ := hslots i hi
    have hweq : w' = w := by
      rw [hw] at hw'
      exact (Option.some_inj.mp hw').symm
    subst hweq
    have hpn : p < 64 * w'.length := by
      have h1 : (p + 1) * ps ≤ 64 * w'.length * ps := le_trans hple hlenb
      have h2 : p + 1 ≤ 64 * w'.length := (mul_le_mul_right hps).mp h1
      omega
    exact hRB.2 p hpn

end FcMem

namespace FcMem

/-- Witness for dump_dirty_batches: two regions of two 4 KiB pages, the
hypervisor marking page 0 of slot 0 and page 1 of slot 1 dirty. -/
theorem dump_dirty_batches_witness :
    ((0 : Nat) < 4096 ∧
     (∀ i : Nat, (fun _ : Nat => false) i = false) ∧
     (∀ i (hi : i < c2Regions.length), ∃ w,
       c2Db.lookup ((c2Regions.get ⟨i, hi⟩).slot) = some w ∧
       (c2Regions.get ⟨i, hi⟩).len ≤ 64 * w.length * 4096 ∧
       (∀ p, p < 64 * w.length →
         jointDirty w ((c2Regions.get ⟨i, hi⟩).bitmap) 4096 p = true →
         (p + 1) * 4096 ≤ (c2Regions.get ⟨i, hi⟩).len))) ∧
    (∃ bl : List (List (Nat × Nat)),
      bl.length = c2Regions.length ∧
      dump_dirty (fun _ => false) c2Regions c2Db 4096 =
        DumpOutcome.ok (bl.flatten.map Prod.fst) bl.flatten
          (reset_dirty c2Regions) ∧
      ∀ i (hi : i < c2Regions.length) (hi2 : i < bl.length) (w : List Nat),
        c2Db.lookup ((c2Regions.get ⟨i, hi⟩).slot) = some w →
        RegionBatches (jointDirty w ((c2Regions.get ⟨i, hi⟩).bitmap) 4096) 4096
          (64 * w.length) (offsetBefore c2Regions i) (bl.get ⟨i, hi2⟩) ∧
        ∀ p, (p + 1) * 4096 ≤ (c2Regions.get ⟨i, hi⟩).len →
          (jointDirty w ((c2Regions.get ⟨i, hi⟩).bitmap) 4096 p = true ↔
            ∃ b ∈ bl.get ⟨i, hi2⟩,
              b.1 ≤ offsetBefore c2Regions i + p * 4096 ∧
              offsetBefore c2Regions i + (p + 1) * 4096 ≤ b.1 + b.2)) :=
  ⟨⟨by decide, fun _ => rfl, by
      intro i hi
      have h2 : i < 2 := by simpa [c2Regions] using hi
      interval_cases i
      · have hg : c2Regions.get ⟨0, hi⟩ = ⟨0, 8192, some [false, false]⟩ := rfl
        rw [hg]
        exact ⟨[1], by decide, by decide, by decide⟩
      · have hg : c2Regions.get ⟨1, hi⟩ = ⟨1, 8192, some [false, false]⟩ := rfl
        rw [hg]
        exact ⟨[2], by decide, by decide, by decide⟩⟩,
   dump_dirty_batches (fun _ => false) c2Regions c2Db 4096 (by decide)
     (fun _ => rfl) (by
      intro i hi
      have h2 : i < 2 := by simpa [c2Regions] using hi
      interval_cases i
      · have hg : c2Regions.get ⟨0, hi⟩ = ⟨0, 8192, some [false, false]⟩ := rfl
        rw [hg]
        exact ⟨[1], by decide, by decide, by decide⟩
      · have hg : c2Regions.get ⟨1, hi⟩ = ⟨1, 8192, some [false, false]⟩ := rfl
        rw [hg]
        exact ⟨[2], by decide, by decide, by decide⟩)⟩



lemma div_le_iff_lt_succ_mul (a j ps : Nat) (hps : 0 < ps) :
    a / ps ≤ j ↔ a < (j + 1) * ps := by
  rw [← Nat.lt_succ_iff, Nat.div_lt_iff_lt_mul hps]

lemma le_pred_div_iff (j e ps : Nat) (hps : 0 < ps) (he : 0 < e) :
    j ≤ (e - 1) / ps ↔ j * ps < e := by
  rw [Nat.le_div_iff_mul_le hps]
  obtain ⟨A, hA⟩ : ∃ A, j * ps = A := ⟨_, rfl⟩
  rw [hA]
  omega

lemma page_in_region (j len ps : Nat) (hps : 0 < ps) (hmod : len % ps = 0)
    (h : j * ps < len) : (j + 1) * ps ≤ len := by
  obtain ⟨q, hq⟩ := Nat.dvd_of_mod_eq_zero hmod
  subst hq
  have hj : j < q := by
    by_contra hn
    push_neg at hn
    have h2 : ps * q ≤ ps * j := Nat.mul_le_mul_left ps hn
    rw [mul_comm ps j] at h2
    omega
  calc (j + 1) * ps ≤ q * ps := Nat.mul_le_mul_right ps hj
    _ = ps * q := mul_comm q ps

lemma findRegion_sound (mem : List GRegion) (a k : Nat) (r : GRegion)
    (h : findRegion mem a = some (k, r)) :
    k < mem.length ∧ r = mem.getD k gdflt ∧ r.start ≤ a ∧ a < r.start + r.len := by
  induction mem generalizing k with
  | nil => simp [findRegion] at h
  | cons r0 rest ih =>
    rw [findRegion] at h
    by_cases h0 : r0.start ≤ a ∧ a < r0.start + r0.len
    · rw [if_pos h0] at h
      simp only [Option.some_inj, Prod.mk.injEq] at h
      obtain ⟨h1, h2⟩ := h
      subst h2
      cases h1
      exact ⟨by simp, by simp, h0.1, h0.2⟩
    · rw [if_neg h0] at h
      rcases hfr : findRegion rest a with _ | ⟨k', r'⟩
      · rw [hfr] at h; simp at h
      · rw [hfr] at h
        simp only [Option.map_some', Option.some_inj, Prod.mk.injEq] at h
        obtain ⟨h1, h2⟩ := h
        subst h2
        cases h1
        obtain ⟨hk', hget, ha1, ha2⟩ := ih k' hfr
        exact ⟨by simpa using Nat.succ_lt_succ hk', by simpa [List.getD_cons_succ] using hget,
          ha1, ha2⟩

lemma findRegion_of_mem (mem : List GRegion) (a : Nat)
    (hsorted : ∀ i j, i < j → j < mem.length →
      (mem.getD i gdflt).start + (mem.getD i gdflt).len ≤ (mem.getD j gdflt).start)
    (k : Nat) (hk : k < mem.length)
    (h1 : (mem.getD k gdflt).start ≤ a)
    (h2 : a < (mem.getD k gdflt).start + (mem.getD k gdflt).len) :
    findRegion mem a = some (k, mem.getD k gdflt) := by
  induction mem generalizing k with
  | nil => simp at hk
  | cons r0 rest ih =>
    cases k with
    | zero =>
      simp only [List.getD_cons_zero] at h1 h2 ⊢
      rw [findRegion, if_pos ⟨h1, h2⟩]
    | succ k' =>
      simp only [List.getD_cons_succ] at h1 h2
      have hk' : k' < rest.length := by simpa using hk
      have hnot : ¬ (r0.start ≤ a ∧ a < r0.start + r0.len) := by
        have hord := hsorted 0 (k' + 1) (Nat.succ_pos k') hk
        simp only [List.getD_cons_zero, List.getD_cons_succ] at hord
        intro hc
        omega
      rw [findRegion, if_neg hnot]
      have hsorted' : ∀ i j, i < j → j < rest.length →
          (rest.getD i gdflt).start + (rest.getD i gdflt).len ≤ (rest.getD j gdflt).start := by
        intro i j hij hj
        have := hsorted (i + 1) (j + 1) (by omega) (by simpa using Nat.succ_lt_succ hj)
        simpa only [List.getD_cons_succ] using this
      rw [ih hsorted' k' hk' h1 h2]
      simp [List.getD_cons_succ]

lemma getD_set_region (mem : List GRegion) (k : Nat) (r' : GRegion) (i : Nat) :
    (mem.set k r').getD i gdflt =
      if i = k ∧ k < mem.length then r' else mem.getD i gdflt := by
  induction mem generalizing k i with
  | nil => simp
  | cons r0 rest ih =>
    cases k with
    | zero =>
      cases i with
      | zero => simp
      | succ i' => simp [List.getD_cons_succ]
    | succ k' =>
      cases i with
      | zero => simp
      | succ i' =>
        simp only [List.set_cons_succ, List.getD_cons_succ, List.length_cons, ih]
        by_cases hc : i' = k' ∧ k' < rest.length
        · rw [if_pos hc, if_pos (by omega)]
        · rw [if_neg hc, if_neg (by omega)]

lemma bitGet_markRange (bm : Option (List Bool)) (off len ps : Nat)
    (hlen : 0 < len) (j : Nat) :
    bitGet (bitmapMarkDirty bm off len ps) j =
      (bitGet bm j ||
        (decide (off / ps ≤ j) && decide (j ≤ (off + len - 1) / ps) &&
          decide (j < bitmapNumBits bm))) := by
  cases bm with
  | none => simp [bitmapMarkDirty, bitGet, bitmapNumBits]
  | some l =>
    simp only [bitmapMarkDirty, Option.map_some', if_neg (by omega : ¬ len = 0),
      bitGet, bitmapNumBits, List.getD_eq_getElem?_getD, List.getElem?_mapIdx]
    by_cases hj : j < l.length
    · rw [List.getElem?_eq_getElem hj]
      simp only [Option.map_some', Option.getD_some]
      by_cases hin : off / ps ≤ j ∧ j ≤ (off + len - 1) / ps
      · simp [hin.1, hin.2, hj]
      · rw [if_neg hin]
        by_cases h1 : off / ps ≤ j
        · have h2 : ¬ j ≤ (off + len - 1) / ps := fun hc => hin ⟨h1, hc⟩
          simp [h1, h2]
        · simp [h1]
    · rw [List.getElem?_eq_none (by omega)]
      simp [hj]

lemma bool_eq_of_iff {a b : Bool} (h : a = true ↔ b = true) : a = b := by
  cases a <;> cases b <;> simp_all

lemma markDirtyLoop_spec (ps : Nat) (hps : 0 < ps) :
    ∀ (fuel : Nat) (mem : List GRegion) (count cur total : Nat),
    (∀ i j, i < j → j < mem.length →
      (mem.getD i gdflt).start + (mem.getD i gdflt).len ≤ (mem.getD j gdflt).start) →
    (∀ i, (mem.getD i gdflt).len % ps = 0) →
    (∀ a, cur ≤ a → a < cur + (count - total) → ∃ k, k < mem.length ∧
      (mem.getD k gdflt).start ≤ a ∧
      a < (mem.getD k gdflt).start + (mem.getD k gdflt).len) →
    (∀ k r, findRegion mem cur = some (k, r) → mem.length ≤ fuel + k) →
    (markDirtyLoop ps fuel mem count cur total).length = mem.length ∧
    ∀ i j,
      ((markDirtyLoop ps fuel mem count cur total).getD i gdflt).start
        = (mem.getD i gdflt).start ∧
      ((markDirtyLoop ps fuel mem count cur total).getD i gdflt).len
        = (mem.getD i gdflt).len ∧
      bitGet ((markDirtyLoop ps fuel mem count cur total).getD i gdflt).bitmap j =
        (bitGet (mem.getD i gdflt).bitmap j ||
          (decide (total < count) &&
           decide (cur < (mem.getD i gdflt).start + (j + 1) * ps) &&
           decide ((mem.getD i gdflt).start + j * ps < cur + (count - total)) &&
           decide (j * ps < (mem.getD i gdflt).len) &&
           decide (j < bitmapNumBits (mem.getD i gdflt).bitmap))) := by
  intro fuel
  induction fuel with
  | zero =>
    intro mem count cur total hsorted hplen hcov hfuel
    have hrem : count - total = 0 := by
      by_contra hr
      obtain ⟨k, hk, hk1, hk2⟩ := hcov cur (le_refl cur) (by omega)
      have := hfuel k (mem.getD k gdflt) (findRegion_of_mem mem cur hsorted k hk hk1 hk2)
      omega
    have hnt : ¬ total < count := by omega
    exact ⟨rfl, fun i j => ⟨rfl, rfl, by simp [markDirtyLoop, hnt]⟩⟩
  | succ fuel ih =>
    intro mem count cur total hsorted hplen hcov hfuel
    by_cases hrem : count - total = 0
    · have hstop : markDirtyLoop ps (fuel + 1) mem count cur total = mem := by
        rcases hfind : findRegion mem cur with _ | ⟨k, r⟩
        · simp [markDirtyLoop, hfind]
        · simp [markDirtyLoop, hfind, hrem]
      have hnt : ¬ total < count := by omega
      rw [hstop]
      exact ⟨rfl, fun i j => ⟨rfl, rfl, by simp [hnt]⟩⟩
    · have htc : total < count := by omega
      obtain ⟨k, hk, hk1, hk2⟩ := hcov cur (le_refl cur) (by omega)
      have hfind : findRegion mem cur = some (k, mem.getD k gdflt) :=
        findRegion_of_mem mem cur hsorted k hk hk1 hk2
      obtain ⟨chunk, hchunkdef⟩ : ∃ c,
          min ((mem.getD k gdflt).len - (cur - (mem.getD k gdflt).start)) (count - total) = c :=
        ⟨_, rfl⟩
      have hchunkpos : 0 < chunk := by omega
      simp only [markDirtyLoop, hfind, hchunkdef]
      rw [if_neg (by omega : ¬ chunk = 0)]
      by_cases hlast : total + chunk = count
      · rw [if_pos hlast]
        refine ⟨by simp, fun i j => ?_⟩
        rw [getD_set_region]
        by_cases hik : i = k ∧ k < mem.length
        · rw [if_pos hik]
          obtain ⟨rfl, -⟩ := hik
          refine ⟨rfl, rfl, ?_⟩
          rw [bitGet_markRange _ _ _ _ hchunkpos j]
          congr 1
          apply bool_eq_of_iff
          simp only [Bool.and_eq_true, decide_eq_true_eq]
          rw [div_le_iff_lt_succ_mul _ _ _ hps,
            le_pred_div_iff _ _ _ hps (by omega : 0 < cur - (mem.getD i gdflt).start + chunk)]
          obtain ⟨A, hA⟩ : ∃ A, j * ps = A := ⟨_, rfl⟩
          obtain ⟨B, hB⟩ : ∃ B, (j + 1) * ps = B := ⟨_, rfl⟩
          have hAB : B = A + ps := by rw [← hA, ← hB]; ring
          rw [hA, hB]
          omega
        · rw [if_neg hik]
          refine ⟨rfl, rfl, ?_⟩
          have hcondf : (decide (total < count) &&
              decide (cur < (mem.getD i gdflt).start + (j + 1) * ps) &&
              decide ((mem.getD i gdflt).start + j * ps < cur + (count - total)) &&
              decide (j * ps < (mem.getD i gdflt).len) &&
              decide (j < bitmapNumBits (mem.getD i gdflt).bitmap)) = false := by
            refine (Bool.eq_false_or_eq_true _).resolve_left ?_
            intro hb
            exfalso
            simp only [Bool.and_eq_true, decide_eq_true_eq] at hb
            obtain ⟨⟨⟨⟨h1, h2⟩, h3⟩, h4⟩, h5⟩ := hb
            by_cases hilen : i < mem.length
            · have hBle := page_in_region j _ ps hps (hplen i) h4
              obtain ⟨A, hA⟩ : ∃ A, j * ps = A := ⟨_, rfl⟩
              obtain ⟨B, hB⟩ : ∃ B, (j + 1) * ps = B := ⟨_, rfl⟩
              have hAB : B = A + ps := by rw [← hA, ← hB]; ring
              rw [hA] at h3 h4
              rw [hB] at h2 hBle
              have hik2 : i ≠ k := fun hc => hik ⟨hc, hk⟩
              rcases Nat.lt_or_ge i k with hlt | hge
              · have hso := hsorted i k hlt hk
                omega
              · have hso := hsorted k i (by omega) hilen
                omega
            · rw [List.getD_eq_default _ _ (by omega : mem.length ≤ i)] at h5
              simp [gdflt, bitmapNumBits] at h5
          rw [hcondf, Bool.or_false]
      · rw [if_neg hlast]
        have hchunkcap : chunk = (mem.getD k gdflt).len - (cur - (mem.getD k gdflt).start) := by
          omega
        have hgeom : ∀ i,
            ((mem.set k { mem.getD k gdflt with
              bitmap := bitmapMarkDirty (mem.getD k gdflt).bitmap
                (cur - (mem.getD k gdflt).start) chunk ps }).getD i gdflt).start
              = (mem.getD i gdflt).start ∧
            ((mem.set k { mem.getD k gdflt with
              bitmap := bitmapMarkDirty (mem.getD k gdflt).bitmap
                (cur - (mem.getD k gdflt).start) chunk ps }).getD i gdflt).len
              = (mem.getD i gdflt).len := by
          intro i
          rw [getD_set_region]
          by_cases hc : i = k ∧ k < mem.length
          · rw [if_pos hc]
            obtain ⟨rfl, -⟩ := hc
            exact ⟨rfl, rfl⟩
          · rw [if_neg hc]
            exact ⟨rfl, rfl⟩
        have hlen' : (mem.set k { mem.getD k gdflt with
            bitmap := bitmapMarkDirty (mem.getD k gdflt).bitmap
              (cur - (mem.getD k gdflt).start) chunk ps }).length = mem.length := by
          simp
        obtain ⟨ihlen, ihall⟩ := ih
          (mem.set k { mem.getD k gdflt with
            bitmap := bitmapMarkDirty (mem.getD k gdflt).bitmap
              (cur - (mem.getD k gdflt).start) chunk ps })
          count (cur + chunk) (total + chunk)
          (by
            intro i j hij hj
            rw [(hgeom i).1, (hgeom i).2, (hgeom j).1]
            exact hsorted i j hij (by omega))
          (by
            intro i
            rw [(hgeom i).2]
            exact hplen i)
          (by
            intro a ha1 ha2
            obtain ⟨k0, hk0, hc1, hc2⟩ := hcov a (by omega) (by omega)
            exact ⟨k0, by omega, by rw [(hgeom k0).1]; exact hc1,
              by rw [(hgeom k0).1, (hgeom k0).2]; exact hc2⟩)
          (by
            intro k2 r2 hfind2
            obtain ⟨hk2, hr2, hin1, hin2⟩ := findRegion_sound _ _ _ _ hfind2
            rw [hr2, (hgeom k2).1] at hin1
            rw [hr2, (hgeom k2).1, (hgeom k2).2] at hin2
            have hk2len : k2 < mem.length := by omega
            have hcur2 : cur + chunk = (mem.getD k gdflt).start + (mem.getD k gdflt).len := by
              omega
            have hkk2 : k < k2 := by
              rcases Nat.lt_trichotomy k2 k with hlt | heq | hgt
              · have hso := hsorted k2 k hlt hk
                omega
              · subst heq
                omega
              · exact hgt
            have := hfuel k (mem.getD k gdflt) hfind
            omega)
        refine ⟨by rw [ihlen, hlen'], fun i j => ?_⟩
        obtain ⟨ih1, ih2, ih3⟩ := ihall i j
        refine ⟨by rw [ih1, (hgeom i).1], by rw [ih2, (hgeom i).2], ?_⟩
        rw [ih3]
        have htc2 : total + chunk < count := by omega
        by_cases hik : i = k
        · subst hik
          have hgd : (mem.set i { mem.getD i gdflt with
              bitmap := bitmapMarkDirty (mem.getD i gdflt).bitmap
                (cur - (mem.getD i gdflt).start) chunk ps }).getD i gdflt
              = { mem.getD i gdflt with
                bitmap := bitmapMarkDirty (mem.getD i gdflt).bitmap
                  (cur - (mem.getD i gdflt).start) chunk ps } := by
            rw [getD_set_region, if_pos ⟨rfl, hk⟩]
          rw [hgd]
          simp only [bitmapNumBits_mark]
          rw [bitGet_markRange _ _ _ _ hchunkpos j]
          rw [Bool.or_assoc]
          congr 1
          apply bool_eq_of_iff
          simp only [Bool.or_eq_true, Bool.and_eq_true, decide_eq_true_eq]
          rw [div_le_iff_lt_succ_mul _ _ _ hps,
            le_pred_div_iff _ _ _ hps (by omega : 0 < cur - (mem.getD i gdflt).start + chunk)]
          obtain ⟨A, hA⟩ : ∃ A, j * ps = A := ⟨_, rfl⟩
          obtain ⟨B, hB⟩ : ∃ B, (j + 1) * ps = B := ⟨_, rfl⟩
          have hAB : B = A + ps := by rw [← hA, ← hB]; ring
          rw [hA, hB]
          omega
        · have hgd : (mem.set k { mem.getD k gdflt with
              bitmap := bitmapMarkDirty (mem.getD k gdflt).bitmap
                (cur - (mem.getD k gdflt).start) chunk ps }).getD i gdflt
              = mem.getD i gdflt := by
            rw [getD_set_region, if_neg (fun hc => hik hc.1)]
          rw [hgd]
          congr 1
          apply bool_eq_of_iff
          simp only [Bool.and_eq_true, decide_eq_true_eq]
          by_cases hilen : i < mem.length
          · have hBimp : j * ps < (mem.getD i gdflt).len →
                (j + 1) * ps ≤ (mem.getD i gdflt).len :=
              fun h => page_in_region j _ ps hps (hplen i) h
            obtain ⟨A, hA⟩ : ∃ A, j * ps = A := ⟨_, rfl⟩
            obtain ⟨B, hB⟩ : ∃ B, (j + 1) * ps = B := ⟨_, rfl⟩
            have hAB : B = A + ps := by rw [← hA, ← hB]; ring
            rw [hA, hB] at hBimp ⊢
            rcases Nat.lt_or_ge i k with hlt | hge
            · have hso := hsorted i k hlt hk
              omega
            · have hso := hsorted k i (by omega) hilen
              omega
          · rw [List.getD_eq_default _ _ (by omega : mem.length ≤ i)]
            simp [gdflt, bitmapNumBits]

/-- C6 (amended): over a sorted guest memory collection whose region
lengths are page multiples and which covers [addr, addr + len) without a
gap, mark_dirty(addr, len) preserves the region geometry and sets exactly
the bits of pages overlapping [addr, addr + len): a page bit afterwards
reads dirty iff it already was, or its page (clamped to its region and to
the bitmap) overlaps the marked range. -/
theorem mark_dirty_frame (mem : List GRegion) (addr len ps : Nat)
    (hps : 0 < ps)
    (hsorted : ∀ i j, i < j → j < mem.length →
      (mem.getD i gdflt).start + (mem.getD i gdflt).len ≤ (mem.getD j gdflt).start)
    (hplen : ∀ i, (mem.getD i gdflt).len % ps = 0)
    (hcov : ∀ a, addr ≤ a → a < addr + len → ∃ k, k < mem.length ∧
      (mem.getD k gdflt).start ≤ a ∧
      a < (mem.getD k gdflt).start + (mem.getD k gdflt).len) :
    (mark_dirty mem addr len ps).length = mem.length ∧
    ∀ i j,
      ((mark_dirty mem addr len ps).getD i gdflt).start = (mem.getD i gdflt).start ∧
      ((mark_dirty mem addr len ps).getD i gdflt).len = (mem.getD i gdflt).len ∧
      bitGet ((mark_dirty mem addr len ps).getD i gdflt).bitmap j =
        (bitGet (mem.getD i gdflt).bitmap j ||
          (decide (0 < len) &&
           decide (addr < (mem.getD i gdflt).start + (j + 1) * ps) &&
           decide ((mem.getD i gdflt).start + j * ps < addr + len) &&
           decide (j * ps < (mem.getD i gdflt).len) &&
           decide (j < bitmapNumBits (mem.getD i gdflt).bitmap))) := by
  have h := markDirtyLoop_spec ps hps (mem.length + 1) mem len addr 0 hsorted hplen
    (by simpa using hcov) (fun k r _ => by omega)
  simpa [mark_dirty, Nat.sub_zero] using h

/-- C6 counterexample to the unrestricted claim: page size 4, regions
[0, 4) and [8, 12) with a one-page hole between them. The page [8, 12)
overlaps the marked range [0, 12), yet after mark_dirty(0, 12) its bit is
still clean: the try_access walk stops at the first gap, so pages of later
regions overlapping the range are never marked. -/
theorem mark_dirty_gap_counterexample :
    ((0 : Nat) < 8 + 4 ∧ (8 : Nat) < 0 + 12) ∧
    bitGet (((mark_dirty [(⟨0, 4, some [false]⟩ : GRegion), ⟨8, 4, some [false]⟩]
      0 12 4).getD 1 gdflt).bitmap) 0 = false := by
  decide

/-- Witness for mark_dirty_frame: in cmem6 with ps = 4, marking [4, 10)
sets the bit of page [4, 8) of the first region and leaves the
non-overlapping page [0, 4) clean. -/
theorem mark_dirty_frame_witness :
    bitGet ((mark_dirty cmem6 4 6 4).getD 0 gdflt).bitmap 1 = true ∧
    bitGet ((mark_dirty cmem6 4 6 4).getD 0 gdflt).bitmap 0 = false := by
  have h := mark_dirty_frame cmem6 4 6 4 (by decide)
    (by
      intro i j hij hj
      have hj' : j < 2 := by simpa [cmem6] using hj
      have hj1 : j = 1 := by omega
      subst hj1
      have hi0 : i = 0 := by omega
      subst hi0
      decide)
    (by
      intro i
      rcases i with _ | _ | n
      · decide
      · decide
      · rw [List.getD_eq_default _ _ (by simp [cmem6])]
        decide)
    (by
      intro a h1 h2
      by_cases hc : a < 8
      · exact ⟨0, by simp [cmem6], by simp [cmem6, gdflt],
          by simp [cmem6, gdflt]; omega⟩
      · exact ⟨1, by simp [cmem6], by simp [cmem6, gdflt]; omega,
          by simp [cmem6, gdflt]; omega⟩)
  refine ⟨?_, ?_⟩
  · rw [(h.2 0 1).2.2]
    decide
  · rw [(h.2 0 0).2.2]
    decide



lemma u64LeBytes_length (x : Nat) : (u64LeBytes x).length = 8 := by
  simp [u64LeBytes]

lemma leBytes_round_gen (n : Nat) : ∀ x : Nat,
    leBytesToNat ((List.range n).map (fun i => x / 256 ^ i % 256)) = x % 256 ^ n := by
  induction n with
  | zero => intro x; simp [leBytesToNat, Nat.mod_one]
  | succ n ih =>
    intro x
    rw [List.range_succ_eq_map]
    simp only [List.map_cons, List.map_map]
    have hf : ((fun i => x / 256 ^ i % 256) ∘ (fun i => i + 1))
        = (fun i => (x / 256) / 256 ^ i % 256) := by
      funext i
      simp only [Function.comp]
      rw [Nat.div_div_eq_div_mul, ← pow_succ']
    rw [hf]
    have hcons : ∀ (b : Nat) (l : List Nat),
        leBytesToNat (b :: l) = b + 256 * leBytesToNat l := by
      intro b l; simp [leBytesToNat]
    rw [hcons, ih (x / 256), pow_zero, Nat.div_one, pow_succ', Nat.mod_mul]

lemma leBytes_round (x : Nat) (hx : x < 2 ^ 64) :
    leBytesToNat (u64LeBytes x) = x := by
  have h : (256 : Nat) ^ 8 = 2 ^ 64 := by norm_num
  rw [u64LeBytes, leBytes_round_gen 8 x, h, Nat.mod_eq_of_lt hx]

lemma deserializeU64_head (x : Nat) (hx : x < 2 ^ 64) (rest : List Nat) :
    deserializeU64 (u64LeBytes x ++ rest) = some (x, rest) := by
  rw [deserializeU64, if_pos (by simp [u64LeBytes_length] : 8 ≤ (u64LeBytes x ++ rest).length)]
  rw [List.take_left' (u64LeBytes_length x), List.drop_left' (u64LeBytes_length x),
    leBytes_round x hx]

lemma deserializeRegions_serialize (rs : List GuestMemoryRegionState)
    (hb : ∀ r ∈ rs, r.base_address < 2 ^ 64 ∧ r.size < 2 ^ 64) :
    deserializeRegions rs.length
      (rs.foldr (fun r acc => serializeRegion r ++ acc) []) = some rs := by
  induction rs with
  | nil => simp [deserializeRegions]
  | cons r rest ih =>
    have hr := hb r (by simp)
    rw [List.length_cons, List.foldr_cons, deserializeRegions]
    rw [serializeRegion, List.append_assoc]
    simp only [deserializeU64_head _ hr.1, deserializeU64_head _ hr.2]
    rw [ih (fun r' hmem => hb r' (by simp [hmem]))]
    rfl

/-- C7: serializing describe(M) and deserializing the result yields the
same memory-state descriptor — same regions, same order, with the
base_address and size fields reconstructed exactly — provided each field
value fits a 64-bit word and the region count does. -/
theorem describe_roundtrip (regions : List (Nat × Nat))
    (hb : ∀ r ∈ regions, r.1 < 2 ^ 64 ∧ r.2 < 2 ^ 64)
    (hc : regions.length < 2 ^ 64) :
    deserializeState (serializeState (describe regions)) = some (describe regions) := by
  rw [serializeState, deserializeState]
  simp only [deserializeU64_head _
    (show (describe regions).regions.length < 2 ^ 64 by simpa [describe] using hc)]
  rw [deserializeRegions_serialize (describe regions).regions (by
    intro r hr
    simp only [describe, List.mem_map] at hr
    obtain ⟨p, hp, rfl⟩ := hr
    exact hb p hp)]
  rfl

/-- Witness for describe_roundtrip at a concrete two-region collection. -/
theorem describe_roundtrip_witness :
    deserializeState (serializeState (describe [(65536, 131072), (262144, 65536)])) =
      some (describe [(65536, 131072), (262144, 65536)]) :=
  describe_roundtrip [(65536, 131072), (262144, 65536)] (by decide) (by decide)



lemma bounceReadLoop_spec (bbufLen : Nat) (hb : 0 < bbufLen) :
    ∀ (remaining : Nat) (stream : List Nat),
      (bounceReadLoop bbufLen remaining stream).1 = stream.take remaining ∧
      (bounceReadLoop bbufLen remaining stream).2.1 = stream.drop remaining ∧
      ∀ c ∈ (bounceReadLoop bbufLen remaining stream).2.2, c ≤ bbufLen := by
  intro remaining
  induction remaining using Nat.strong_induction_on with
  | _ remaining ih =>
    intro stream
    by_cases h0 : remaining = 0
    · simp [bounceReadLoop, h0]
    · rw [bounceReadLoop]
      rw [dif_neg h0, dif_neg (by omega : ¬ bbufLen = 0)]
      simp only
      by_cases hshort : (stream.take (min remaining bbufLen)).length < min remaining bbufLen
      · rw [if_pos hshort]
        have hlen : (stream.take (min remaining bbufLen)).length
            = min (min remaining bbufLen) stream.length := List.length_take _ _
        have hsl : stream.length < min remaining bbufLen := by omega
        refine ⟨?_, ?_, ?_⟩
        · rw [List.take_of_length_le (by omega : stream.length ≤ min remaining bbufLen),
            List.take_of_length_le (by omega : stream.length ≤ remaining)]
        · rw [hlen, List.drop_eq_nil_of_le (by omega : stream.length ≤ min (min remaining bbufLen) stream.length),
            List.drop_eq_nil_of_le (by omega : stream.length ≤ remaining)]
        · intro c hc
          simp only [List.mem_singleton] at hc
          omega
      · rw [if_neg hshort]
        have hlen : (stream.take (min remaining bbufLen)).length
            = min (min remaining bbufLen) stream.length := List.length_take _ _
        have hfull : (stream.take (min remaining bbufLen)).length = min remaining bbufLen := by
          omega
        obtain ⟨ih1, ih2, ih3⟩ := ih (remaining - min remaining bbufLen) (by omega)
          (stream.drop (min remaining bbufLen))
        refine ⟨?_, ?_, ?_⟩
        · simp only [hfull, ih1]
          conv_rhs => rw [show remaining
            = min remaining bbufLen + (remaining - min remaining bbufLen) from by omega]
          rw [List.take_add]
        · simp only [ih2, List.drop_drop]
          congr 1
          omega
        · intro c hc
          simp only [List.mem_cons] at hc
          rcases hc with rfl | hc
          · omega
          · exact ih3 c hc

lemma bounceWriteLoop_aux (bbufLen : Nat) (hb : 0 < bbufLen) :
    ∀ (L : Nat) (buf : List Nat), buf.length ≤ L → ∀ cap,
      (bounceWriteLoop bbufLen cap buf).1 = buf.take cap ∧
      (bounceWriteLoop bbufLen cap buf).2.1 = cap - buf.length ∧
      ∀ c ∈ (bounceWriteLoop bbufLen cap buf).2.2, c ≤ bbufLen := by
  intro L
  induction L with
  | zero =>
    intro buf hL cap
    have h0 : buf.length = 0 := by omega
    obtain rfl := List.eq_nil_of_length_eq_zero h0
    simp [bounceWriteLoop]
  | succ L ih =>
    intro buf hL cap
    by_cases h0 : buf.length = 0
    · obtain rfl := List.eq_nil_of_length_eq_zero h0
      simp [bounceWriteLoop]
    · rw [bounceWriteLoop, dif_neg h0, dif_neg (by omega : ¬ bbufLen = 0)]
      simp only
      have hhm : min buf.length bbufLen ≤ buf.length := Nat.min_le_left _ _
      by_cases hshort : min (min buf.length bbufLen) cap < min buf.length bbufLen
      · rw [if_pos hshort]
        refine ⟨by rw [show min (min buf.length bbufLen) cap = cap from by omega],
          by show cap - min (min buf.length bbufLen) cap = cap - buf.length; omega, ?_⟩
        intro c hc
        simp only [List.mem_singleton] at hc
        omega
      · rw [if_neg hshort]
        have hn : min (min buf.length bbufLen) cap = min buf.length bbufLen := by omega
        obtain ⟨ih1, ih2, ih3⟩ := ih (buf.drop (min (min buf.length bbufLen) cap))
          (by rw [List.length_drop]; omega) (cap - min (min buf.length bbufLen) cap)
        refine ⟨?_, ?_, ?_⟩
        · rw [ih1]
          conv_rhs => rw [show cap = min (min buf.length bbufLen) cap
            + (cap - min (min buf.length bbufLen) cap) from by omega]
          rw [List.take_add]
        · rw [ih2, List.length_drop]
          omega
        · intro c hc
          simp only [List.mem_cons] at hc
          rcases hc with rfl | hc
          · omega
          · exact ih3 c hc

/-- C9: through an activated MaybeBounce with persistent capacity N > 0,
a read delivers exactly the bytes of a direct (unbounced) read of the
same request and leaves the target stream in the same position, and a
write hands the target exactly the bytes of a direct write of the same
buffer and leaves it the same remaining capacity; each target transfer of
the chain requests at most N bytes; and the call returns Ok with the
total transferred — min(request, available) for reads and
min(buffer, capacity) for writes — a short target transfer having ended
the chain with the bytes so far. -/
theorem maybe_bounce_chain (N bufLen cap : Nat) (stream buf : List Nat)
    (hN : 0 < N) :
    (read_volatile_bounced N bufLen stream).1 = (read_volatile_direct bufLen stream).1 ∧
    (read_volatile_bounced N bufLen stream).2.1 = (read_volatile_direct bufLen stream).2 ∧
    (∀ c ∈ (read_volatile_bounced N bufLen stream).2.2, c ≤ N) ∧
    (read_volatile_bounced N bufLen stream).1.length = min bufLen stream.length ∧
    (write_volatile_bounced N cap buf).1 = (write_volatile_direct cap buf).1 ∧
    (write_volatile_bounced N cap buf).2.1 = (write_volatile_direct cap buf).2 ∧
    (∀ c ∈ (write_volatile_bounced N cap buf).2.2, c ≤ N) ∧
    (write_volatile_bounced N cap buf).1.length = min cap buf.length := by
  have hNe : ¬ N = 0 := by omega
  obtain ⟨hr1, hr2, hr3⟩ := bounceReadLoop_spec N hN bufLen stream
  obtain ⟨hw1, hw2, hw3⟩ := bounceWriteLoop_aux N hN buf.length buf (le_refl _) cap
  refine ⟨?_, ?_, ?_, ?_, ?_, ?_, ?_, ?_⟩
  · rw [read_volatile_bounced, if_neg hNe, hr1, read_volatile_direct]
  · rw [read_volatile_bounced, if_neg hNe, hr2, read_volatile_direct]
  · rw [read_volatile_bounced, if_neg hNe]
    exact hr3
  · rw [read_volatile_bounced, if_neg hNe, hr1, List.length_take]
  · rw [write_volatile_bounced, if_neg hNe, hw1, write_volatile_direct]
  · rw [write_volatile_bounced, if_neg hNe, hw2, write_volatile_direct]
  · rw [write_volatile_bounced, if_neg hNe]
    exact hw3
  · rw [write_volatile_bounced, if_neg hNe, hw1, List.length_take]

/-- Witness for maybe_bounce_chain: N = 3, an 8-byte read request against
a 5-byte stream, and a 6-byte buffer written into capacity 4. -/
theorem maybe_bounce_chain_witness :
    (read_volatile_bounced 3 8 [1, 2, 3, 4, 5]).1
        = (read_volatile_direct 8 [1, 2, 3, 4, 5]).1 ∧
    (read_volatile_bounced 3 8 [1, 2, 3, 4, 5]).2.1
        = (read_volatile_direct 8 [1, 2, 3, 4, 5]).2 ∧
    (∀ c ∈ (read_volatile_bounced 3 8 [1, 2, 3, 4, 5]).2.2, c ≤ 3) ∧
    (read_volatile_bounced 3 8 [1, 2, 3, 4, 5]).1.length = min 8 [1, 2, 3, 4, 5].length ∧
    (write_volatile_bounced 3 4 [9, 8, 7, 6, 5, 4]).1
        = (write_volatile_direct 4 [9, 8, 7, 6, 5, 4]).1 ∧
    (write_volatile_bounced 3 4 [9, 8, 7, 6, 5, 4]).2.1
        = (write_volatile_direct 4 [9, 8, 7, 6, 5, 4]).2 ∧
    (∀ c ∈ (write_volatile_bounced 3 4 [9, 8, 7, 6, 5, 4]).2.2, c ≤ 3) ∧
    (write_volatile_bounced 3 4 [9, 8, 7, 6, 5, 4]).1.length
        = min 4 [9, 8, 7, 6, 5, 4].length :=
  maybe_bounce_chain 3 8 4 [1, 2, 3, 4, 5] [9, 8, 7, 6, 5, 4] (by decide)

end FcMem
